import Mathlib

set_option maxHeartbeats 1000000
set_option maxRecDepth 8000

namespace CuraGeom

/-! # Data model

Shallow embedding of the geometric core of the CuraEngine fork: the
`Shape` polygon-set type (src/src/geometry/shape.cpp) and the layer-parts
pipeline (src/src/layerPart.cpp).  Machine `coord_t = int64_t` coordinates
are modelled with unbounded `Int`; where 64-bit wrap-around matters (the
unsigned subtraction in `insertFiberPath`) it is made explicit. -/

/-- Fixed-point integer 2-D point (`Point2LL` of the source: a pair of
`coord_t = int64_t` coordinates). -/
structure Point2LL where
  x : Int
  y : Int
deriving DecidableEq, Repr

instance : Inhabited Point2LL := ⟨⟨0, 0⟩⟩

instance : Add Point2LL := ⟨fun a b => ⟨a.x + b.x, a.y + b.y⟩⟩

instance : Sub Point2LL := ⟨fun a b => ⟨a.x - b.x, a.y - b.y⟩⟩

/-- A closed polygon (`Polygon` of the source): ordered vertex list with an
implicit closing edge from the last point back to the first. -/
abbrev Polygon := List Point2LL

/-- A `Shape` (the source's `Shape : LinesSet<Polygon>`): an ordered
collection of closed polygons. -/
abbrev Shape := List Polygon

/-- Twice the signed area of a closed polygon: the exact cross-product sum.
ClipperLib::Area returns this divided by 2.0; doubling keeps the arithmetic
in `Int`.  Sign and comparisons against a (doubled) threshold agree with the
double-precision original. -/
def area2 (poly : Polygon) : Int :=
  match poly with
  | [] => 0
  | p :: ps =>
    (List.zip (p :: ps) (ps ++ [p])).foldl
      (fun acc e => acc + (e.1.x * e.2.y - e.2.x * e.1.y)) 0

/-- The edge list of a closed polygon, exactly as the source iterates it:
`p0` starts at `poly.back()` and runs over consecutive pairs, so the closing
edge (last point, first point) comes first. -/
def polyEdges : Polygon → List (Point2LL × Point2LL)
  | [] => []
  | p :: ps => List.zip (ps.getLastD p :: (p :: ps).dropLast) (p :: ps)

/-- All vertices of a shape, in order (used by `makeConvex` and by
`pointCount`). -/
def shapeVertices (s : Shape) : List Point2LL := s.flatten

/-- LinesSet::pointCount of the source: total number of vertices. -/
def pointCount (s : Shape) : Nat := (shapeVertices s).length

/-! ## Ray-cast primitive

Modelled from the spec: the implementations of
`LinearAlg2D::pointLiesOnTheRightOfLine` (used by `Shape::findInside` and
`Polygon::inside`) and `ClipperLib::PointInPolygon` (used by
`Shape::inside`) are not under src/.  The spec, §4.6, describes one
semantics for both: "ray-cast from the point, counting crossings against
every constituent polygon's edges; if the point lies exactly on an edge,
return border_result immediately; otherwise inside iff the total crossing
count is odd".  Both are therefore modelled with the single primitive
below. -/

/-- Modelled from the spec (§4.6): result of testing one edge `p0 → p1`
against the rightward horizontal ray from `p`: `1` if the ray strictly
crosses the edge (half-open in `y` so shared vertices are counted once),
`0` if `p` lies exactly on the edge, `-1` otherwise. -/
def pointLiesOnTheRightOfLine (p p0 p1 : Point2LL) : Int :=
  if p0.y = p1.y then
    if p.y = p0.y ∧ min p0.x p1.x ≤ p.x ∧ p.x ≤ max p0.x p1.x then 0 else -1
  else if (p0.y ≤ p.y ∧ p.y < p1.y) ∨ (p1.y ≤ p.y ∧ p.y < p0.y) then
    -- the horizontal line through p meets the (half-open) segment; compare
    -- the intersection abscissa with p.x via an exact cross product
    let cross := (p1.x - p0.x) * (p.y - p0.y) - (p1.y - p0.y) * (p.x - p0.x)
    let s := if p0.y < p1.y then cross else -cross
    if 0 < s then 1 else if s = 0 then 0 else -1
  else -1

/-- The intersection abscissa recorded by `Shape::findInside` for a crossing
edge, translated from the source (`Int.tdiv` is the C++ truncating integer
division):
x = p0.X + (p1.X - p0.X) * (p.Y - p0.Y) / (p1.Y - p0.Y), with the
defensive p1.Y == p0.Y branch returning p0.X. -/
def crossingX (p p0 p1 : Point2LL) : Int :=
  if p1.y = p0.y then p0.x
  else p0.x + Int.tdiv ((p1.x - p0.x) * (p.y - p0.y)) (p1.y - p0.y)

/-- Running minimum used for min_x: the C++ initializes min_x to
int64_t max and keeps `if (x < min_x) min_x = x`; `none` models the
still-at-sentinel state. -/
def updateMin (mx : Option Int) (x : Int) : Option Int :=
  match mx with
  | none => some x
  | some m => some (if x < m then x else m)

/-- Comparison against the sentinel: `some x < none` is true (any recorded
minimum beats the int64 max sentinel), `none < _` is false. -/
def optLt (a b : Option Int) : Bool :=
  match a, b with
  | none, _ => false
  | some _, none => true
  | some x, some y => x < y

/-- Modelled from the spec (§4.6): ClipperLib::PointInPolygon contract as
used by `Shape::inside`: `-1` when `p` is exactly on the border of `poly`,
`1` when the ray-crossing count is odd, `0` otherwise. -/
def pointInPolygon (p : Point2LL) (poly : Polygon) : Int :=
  if (polyEdges poly).any (fun e => pointLiesOnTheRightOfLine p e.1 e.2 = 0) then -1
  else if ((polyEdges poly).countP (fun e => pointLiesOnTheRightOfLine p e.1 e.2 = 1)) % 2 = 1
  then 1
  else 0

/-- Loop of `Shape::inside` (shape.cpp:152-165): accumulate
per-polygon results, early-returning `border_result` on a border hit. -/
def insideLoop (p : Point2LL) (border_result : Bool) : List Polygon → Int → Bool
  | [], cnt => cnt % 2 == 1
  | poly :: rest, cnt =>
    let r := pointInPolygon p poly
    if r = -1 then border_result else insideLoop p border_result rest (cnt + r)

/-- Shape::inside (shape.cpp:152-165). -/
def inside (s : Shape) (p : Point2LL) (border_result : Bool) : Bool :=
  insideLoop p border_result s 0

/-- Inner edge loop of `Shape::findInside` for one polygon: counts
crossings and tracks the minimal crossing abscissa; `none` models the
whole-function early `return poly_idx` taken when `border_result` is set
and the point lies exactly on an edge. -/
def scanEdges (p : Point2LL) (border_result : Bool) :
    List (Point2LL × Point2LL) → Nat → Option Int → Option (Nat × Option Int)
  | [], cr, mx => some (cr, mx)
  | (p0, p1) :: es, cr, mx =>
    let comp := pointLiesOnTheRightOfLine p p0 p1
    if comp = 1 then
      scanEdges p border_result es (cr + 1) (updateMin mx (crossingX p p0 p1))
    else if border_result = true ∧ comp = 0 then none
    else scanEdges p border_result es cr mx

/-- Outer polygon loop of `Shape::findInside`: either the early-returned
border polygon index (`Sum.inr`) or the per-polygon (crossings, min_x)
statistics in order (`Sum.inl`). -/
def scanPolys (p : Point2LL) (border_result : Bool) :
    List Polygon → Nat → List (Nat × Option Int) → (List (Nat × Option Int)) ⊕ Nat
  | [], _, acc => Sum.inl acc.reverse
  | poly :: rest, idx, acc =>
    match scanEdges p border_result (polyEdges poly) 0 none with
    | none => Sum.inr idx
    | some st => scanPolys p border_result rest (idx + 1) (st :: acc)

/-- Selection loop of `Shape::findInside` (shape.cpp:210-224): walk the
statistics, track the smallest min_x over polygons with an odd crossing
count, count those polygons. -/
def selectLoop : List (Nat × Option Int) → Nat → Option Int → Option Nat → Nat →
    Option Nat × Nat
  | [], _, _, ret, n => (ret, n)
  | (cr, mx) :: rest, idx, mxu, ret, n =>
    if cr % 2 = 1 then
      if optLt mx mxu then selectLoop rest (idx + 1) mx (some idx) (n + 1)
      else selectLoop rest (idx + 1) mxu ret (n + 1)
    else selectLoop rest (idx + 1) mxu ret n

/-- Final selection of `Shape::findInside`: NO_INDEX (modelled as `none`)
when the number of odd-crossing polygons is even. -/
def selectRet (stats : List (Nat × Option Int)) : Option Nat :=
  let r := selectLoop stats 0 none none 0
  if r.2 % 2 = 0 then none else r.1

/-- Shape::findInside (shape.cpp:167-230).  The result is the found polygon
index; `none` models NO_INDEX (= SIZE_MAX in the source, never a valid
index).  NOTE kept faithful: on an empty shape the C++ executes
`return false;`, and `false` converts to `size_t` 0 — a valid index value,
not NO_INDEX — hence `some 0` here. -/
def findInside (s : Shape) (p : Point2LL) (border_result : Bool) : Option Nat :=
  if s.length < 1 then some 0
  else
    match scanPolys p border_result s 0 [] with
    | Sum.inr idx => some idx
    | Sum.inl stats => selectRet stats

/-! ## Declarative reference quantities for the containment claims -/

/-- Number of edges of `poly` strictly crossed by the rightward ray from
`p` (the per-polygon ray-crossing count of the claims). -/
def crossCount (p : Point2LL) (poly : Polygon) : Nat :=
  (polyEdges poly).countP (fun e => pointLiesOnTheRightOfLine p e.1 e.2 = 1)

/-- Whether `p` lies exactly on some edge of `poly`. -/
def hasBorderEdge (p : Point2LL) (poly : Polygon) : Bool :=
  (polyEdges poly).any (fun e => pointLiesOnTheRightOfLine p e.1 e.2 = 0)

/-- Minimum intersection abscissa among the right-side crossings of `poly`
(the min_x of the claims); `none` when there is no crossing. -/
def polyMinX (p : Point2LL) (poly : Polygon) : Option Int :=
  (polyEdges poly).foldl
    (fun mx e =>
      if pointLiesOnTheRightOfLine p e.1 e.2 = 1 then updateMin mx (crossingX p e.1 e.2)
      else mx)
    none

/-- Number of constituent polygons of `s` with an odd ray-crossing count. -/
def oddPolyCount (p : Point2LL) (s : Shape) : Nat :=
  s.countP (fun poly => crossCount p poly % 2 = 1)

/-- Non-strict version of `optLt` with the same sentinel reading
(`none` = the int64 max sentinel). -/
def optLe (a b : Option Int) : Bool :=
  match a, b with
  | _, none => true
  | none, some _ => false
  | some x, some y => x ≤ y

/-! ## Shape::removeSmallAreas (shape.cpp:409-471)

The C++ works in place on the polygon vector with iterators; the embedding
works on a `List Polygon` with explicit indices (`List.getD`/`List.set`,
matching `std::vector` element access, with `List.set` a no-op out of
bounds exactly where the C++ never goes out of bounds).
The area test `std::abs(INT2MM2(ClipperLib::Area(poly))) < min_area_size`
compares doubles obtained from the exact integer cross-product sum by the
monotone positive rescaling x ↦ x/(2·10⁶); it is modelled exactly as
`|area2 poly| < thr2` with `thr2` the threshold expressed in doubled
square-int units. -/

/-- Smallness test of removeSmallAreas, in doubled square-int units. -/
def isSmallPoly (thr2 : Int) (poly : Polygon) : Bool := |area2 poly| < thr2

/-- A small polygon with non-negative (solid) signed area. -/
def isSmallSolid (thr2 : Int) (poly : Polygon) : Bool :=
  |area2 poly| < thr2 && 0 ≤ area2 poly

/-- A small polygon with negative (hole) signed area. -/
def isSmallHole (thr2 : Int) (poly : Polygon) : Bool :=
  |area2 poly| < thr2 && area2 poly < 0

/-- Modelled from the spec: Polygon::inside(p) (not under src/) — the
ray-cast crossing-parity point-in-polygon test used on the removed
outlines, with the default border_result = false. -/
def polyInsideBool (poly : Polygon) (p : Point2LL) : Bool :=
  if hasBorderEdge p poly then false else crossCount p poly % 2 = 1

/-- Loop of the remove_holes = true branch (shape.cpp:412-424): a small
polygon is overwritten by the element in front of new_end and re-examined;
otherwise the iterator advances. -/
def rsaLoopAll (thr2 : Int) (arr : List Polygon) (it newEnd : Nat) :
    List Polygon × Nat :=
  if h : it < newEnd then
    if isSmallPoly thr2 (arr.getD it []) then
      rsaLoopAll thr2 (arr.set it (arr.getD (newEnd - 1) [])) it (newEnd - 1)
    else
      rsaLoopAll thr2 arr (it + 1) newEnd
  else (arr, newEnd)
termination_by newEnd - it
decreasing_by
  · omega
  · omega

/-- Loop of the remove_holes = false branch, first pass
(shape.cpp:428-453): small solids are swapped to the back zone (with the
final `break` when the last element self-swaps); small holes are recorded
by position. -/
def rsaLoopSolids (thr2 : Int) (arr : List Polygon) (it newEnd : Nat)
    (holes : List Nat) : List Polygon × Nat × List Nat :=
  if h : it < newEnd then
    -- the local `double area` of the source is inlined
    if |area2 (arr.getD it [])| < thr2 then
      if 0 ≤ area2 (arr.getD it []) then
        if it < newEnd - 1 then
          rsaLoopSolids thr2
            ((arr.set it (arr.getD (newEnd - 1) [])).set (newEnd - 1) (arr.getD it []))
            it (newEnd - 1) holes
        else (arr, newEnd - 1, holes)
      else rsaLoopSolids thr2 arr (it + 1) newEnd (holes ++ [it])
    else rsaLoopSolids thr2 arr (it + 1) newEnd holes
  else (arr, newEnd, holes)
termination_by newEnd - it
decreasing_by
  · omega
  · omega
  · omega

/-- The inner outline loop of the small-hole removal pass
(shape.cpp:460-467): whether the first point of the hole at position hIdx
lies inside one of the removed outlines (positions [ros, total)). -/
def rsaHoleHit (arr : List Polygon) (ros total hIdx : Nat) : Bool :=
  (List.range (total - ros)).any
    (fun k => polyInsideBool (arr.getD (ros + k) []) ((arr.getD hIdx []).headD ⟨0, 0⟩))

/-- Second pass of the remove_holes = false branch (shape.cpp:455-468):
walk the recorded small holes in reverse; a hole whose first point is
inside one of the removed outlines (positions [ros, total)) is overwritten
by the element in front of new_end. -/
def rsaLoopHoles (arr : List Polygon) (newEnd ros total : Nat) :
    List Nat → List Polygon × Nat
  | [] => (arr, newEnd)
  | hIdx :: rest =>
    if rsaHoleHit arr ros total hIdx
    then rsaLoopHoles (arr.set hIdx (arr.getD (newEnd - 1) [])) (newEnd - 1) ros total rest
    else rsaLoopHoles arr newEnd ros total rest

/-- Shape::removeSmallAreas (shape.cpp:409-471). -/
def removeSmallAreas (s : Shape) (thr2 : Int) (remove_holes : Bool) : Shape :=
  if remove_holes then
    let r := rsaLoopAll thr2 s 0 s.length
    r.1.take r.2
  else
    let r := rsaLoopSolids thr2 s 0 s.length []
    let ros := r.2.1
    let r2 := rsaLoopHoles r.1 ros ros s.length r.2.2.reverse
    r2.1.take r2.2

/-! ## Shape::makeConvex (shape.cpp:52-103) -/

/-- Modelled from the spec: LinearAlg2D::pointIsLeftOfLine is not under
src/; the amount `p` is (strictly) to the left of the directed line
`a → b`: the standard exact cross product. -/
def pointIsLeftOfLine (p a b : Point2LL) : Int :=
  (b.x - a.x) * (p.y - a.y) - (b.y - a.y) * (p.x - a.x)

/-- The inner while loop of makeConvex (shape.cpp:80-85): pop the chain
(kept here in reverse order, head = back) while the guard holds.  `f` is
convexified.front(), which the pops never remove. -/
def convexPop (cur f : Point2LL) : List Point2LL → List Point2LL
  | b :: b2 :: rest =>
    if 0 ≤ pointIsLeftOfLine b b2 cur ∨ 0 < pointIsLeftOfLine b b2 f then
      convexPop cur f (b2 :: rest)
    else b :: b2 :: rest
  | conv => conv

/-- The sliding-window loop of make_sorted_poly_convex (shape.cpp:72-88)
over the sorted point list; `conv` is the shared output chain in reverse
order. -/
def convexWindows (f : Point2LL) : List Point2LL → List Point2LL → List Point2LL
  | cur :: aft :: rest, conv =>
    if pointIsLeftOfLine cur (conv.headD ⟨0, 0⟩) aft < 0 then
      convexWindows f (aft :: rest) (cur :: convexPop cur f conv)
    else convexWindows f (aft :: rest) conv
  | _, conv => conv

/-- The comparator of the std::sort call (shape.cpp:91-97), as a total
preorder: x, then y.  A tie in this preorder is full point equality, so
EVERY sorting algorithm produces the same sorted list; the insertion sort
below therefore models std::sort exactly. -/
def pointLeLex (a b : Point2LL) : Bool :=
  a.x < b.x || (a.x = b.x && a.y ≤ b.y)

/-- Sorted insertion for the model of the std::sort call. -/
def insertSorted (p : Point2LL) : List Point2LL → List Point2LL
  | [] => [p]
  | q :: rest => if pointLeLex p q then p :: q :: rest else q :: insertSorted p rest

/-- Insertion sort by the source's comparator (see pointLeLex: the result
list coincides with what std::sort produces). -/
def sortPoints : List Point2LL → List Point2LL
  | [] => []
  | p :: rest => insertSorted p (sortPoints rest)

/-- Shape::makeConvex (shape.cpp:52-103).  `none` models the C++
out-of-bounds access poly[0] taken when a non-empty shape has no vertices
at all (only degenerate empty polygons — excluded from valid Shapes by the
data model). -/
def makeConvex (s : Shape) : Option Shape :=
  if s.isEmpty then some s
  else
    match shapeVertices s with
    | [] => none
    | p0 :: _ =>
      let sorted := sortPoints (shapeVertices s)
      let f := sorted.headD p0
      let c1 := convexWindows f sorted [f]
      let rev := sorted.reverse
      let c2 := convexWindows f rev (rev.headD p0 :: c1)
      some [c2.reverse]

/-! ## Shape::smooth and Shape::smooth_outward (shape.cpp:592-637)

The per-polygon smoothers Polygon::smooth and Polygon::smooth_outward are
not under src/; they are abstracted as the function parameter `polySm`
filling the freshly appended output line, so the theorems quantify over
every possible smoother. -/

/-- Loop of Shape::smooth_outward (shape.cpp:592-613): a smoothed result
that fell below 3 points is removed from the output
(`ret.resize(ret.size() - 1)`). -/
def smoothOutwardLoop (polySm : Polygon → Polygon) : List Polygon → Shape → Shape
  | [], ret => ret
  | poly :: rest, ret =>
    if poly.length < 3 then smoothOutwardLoop polySm rest ret
    else if poly.length = 3 then smoothOutwardLoop polySm rest (ret ++ [poly])
    else
      let back := polySm poly
      if back.length < 3 then smoothOutwardLoop polySm rest ret
      else smoothOutwardLoop polySm rest (ret ++ [back])

/-- Shape::smooth_outward (shape.cpp:592-613). -/
def smooth_outward (polySm : Polygon → Polygon) (s : Shape) : Shape :=
  smoothOutwardLoop polySm s []

/-- Loop of Shape::smooth (shape.cpp:615-637): a smoothed result that fell
below 3 points is NOT removed; the polygon itself is truncated by one
point (`back.resize(back.size() - 1)`) and stays in the output.  (For a
0-point result the C++ size_t underflow makes resize throw; the truncation
branch is reached with sizes 1 and 2, where `List.take (n - 1)` models it
exactly.) -/
def smoothLoop (polySm : Polygon → Polygon) : List Polygon → Shape → Shape
  | [], ret => ret
  | poly :: rest, ret =>
    if poly.length < 3 then smoothLoop polySm rest ret
    else if poly.length = 3 then smoothLoop polySm rest (ret ++ [poly])
    else
      let back := polySm poly
      if back.length < 3 then smoothLoop polySm rest (ret ++ [back.take (back.length - 1)])
      else smoothLoop polySm rest (ret ++ [back])

/-- Shape::smooth (shape.cpp:615-637). -/
def smooth (polySm : Polygon → Polygon) (s : Shape) : Shape :=
  smoothLoop polySm s []

/-- Modelled from the spec (§4.5): Polygon::smooth is not under src/ —
"removes vertices symmetrically up to a chord-length budget".  Single
greedy pass: starting from the first vertex, a vertex is dropped when the
shortcut chord from the last kept vertex to the following vertex is
shorter than remove_length. -/
def smoothGo (l2 : Int) (keptLast first : Point2LL) : List Point2LL → List Point2LL
  | [] => []
  | v :: rest =>
    let nxt := rest.headD first
    let d := keptLast - nxt
    if d.x * d.x + d.y * d.y < l2 then smoothGo l2 keptLast first rest
    else v :: smoothGo l2 v first rest

/-- Modelled from the spec (§4.5): the per-polygon chord-budget smoother. -/
def polySmoothModel (remove_length : Int) (poly : Polygon) : Polygon :=
  match poly with
  | [] => []
  | v0 :: rest => v0 :: smoothGo (remove_length * remove_length) v0 v0 rest

/-! ## Shape::offsetMulti (shape.cpp:295-341) -/

/-- vSize2 of the source (squared vector length). -/
def vSize2 (v : Point2LL) : Int := v.x * v.x + v.y * v.y

/-- Modelled from the spec (§3, rotate-90): turn90CCW is not under src/. -/
def turn90CCW (v : Point2LL) : Point2LL := ⟨-v.y, v.x⟩

/-- Modelled from the spec (§3, normalize-to-length): `normal` is not
under src/ — v scaled to length len with integer arithmetic. -/
def normal (v : Point2LL) (len : Int) : Point2LL :=
  let l : Int := Int.ofNat (Nat.sqrt (vSize2 v).toNat)
  if l < 1 then ⟨len, 0⟩
  else ⟨Int.tdiv (v.x * len) l, Int.tdiv (v.y * len) l⟩

/-- Inner point loop of offsetMulti (shape.cpp:314-333): every vertex
reads offset_dists[i]; `none` models an out-of-bounds read of the
offset-distance list. -/
def offsetMultiPoints (dists : List Int) :
    List Point2LL → Point2LL → Int → Nat → Option (Polygon × Nat)
  | [], _, _, i => some ([], i)
  | p :: ps, prev_p, prev_dist, i =>
    match dists.get? i with
    | none => none
    | some offset_dist =>
      let vec_dir := prev_p - p
      let seg : List Point2LL :=
        if 10 * 10 < vSize2 vec_dir then
          [prev_p + turn90CCW (normal vec_dir prev_dist), p + turn90CCW (normal vec_dir offset_dist)]
        else []
      match offsetMultiPoints dists ps p offset_dist (i + 1) with
      | none => none
      | some (restPoly, i2) => some (seg ++ restPoly, i2)

/-- Outer path loop of offsetMulti (shape.cpp:301-336): empty paths are
filtered out; each non-empty path first reads the wrap-around distance
offset_dists[i + size - 1]. -/
def offsetMultiPaths (dists : List Int) : List Polygon → Nat → Option Shape
  | [], _ => some []
  | path :: rest, i =>
    if path.isEmpty then offsetMultiPaths dists rest i
    else
      match dists.get? (i + path.length - 1) with
      | none => none
      | some prev_dist =>
        match offsetMultiPoints dists path (path.getLastD ⟨0, 0⟩) prev_dist i with
        | none => none
        | some (retPoly, i2) =>
          match offsetMultiPaths dists rest i2 with
          | none => none
          | some restRet => some (retPoly :: restRet)

/-- Shape::offsetMulti (shape.cpp:295-341).  The assert
`pointCount() == offset_dists.size()` is modelled as the `none` (fatal)
branch; the final ClipperLib::SimplifyPolygons union pass is external and
abstracted as the parameter `simplify`. -/
def offsetMulti (simplify : Shape → Shape) (s : Shape) (offset_dists : List Int) :
    Option Shape :=
  if pointCount s = offset_dists.length then
    match offsetMultiPaths offset_dists s 0 with
    | none => none
    | some ret => some (simplify ret)
  else none

/-! ## The layer-parts pipeline (layerPart.cpp)

The stitcher, the Simplify pass on open polylines and the Clipper
union-to-PolyTree step are external capabilities (spec §6); the embedding
takes the post-stitch polygon list as input and abstracts the nesting
forest produced by the Clipper union as the function parameter
`unionTree`. -/

/-- A node of the Clipper nesting forest (PolyNode): a contour and its
direct children. -/
inductive PolyNode where
  | node : Polygon → List PolyNode → PolyNode

/-- Contour of a PolyNode. -/
def PolyNode.contour : PolyNode → Polygon
  | .node c _ => c

/-- Children of a PolyNode. -/
def PolyNode.childs : PolyNode → List PolyNode
  | .node _ cs => cs

mutual

/-- Shape::splitIntoParts_processPolyTreeNode (shape.cpp:741-755),
iterating the children of one node: for each child emit the part made of
its contour plus its direct children's contours, with the recursive calls
on the grandchildren emitted first (they are pushed to ret before the
part, exactly as in the source). -/
def processPolyTreeChildren : List PolyNode → List (List Polygon)
  | [] => []
  | PolyNode.node ccont gcs :: siblings =>
    processPolyTreeGrandchildren gcs ++ [ccont :: gcs.map PolyNode.contour]
      ++ processPolyTreeChildren siblings

/-- The grandchild recursion of splitIntoParts_processPolyTreeNode: each
recursive call re-enters the child loop on the grandchild's children. -/
def processPolyTreeGrandchildren : List PolyNode → List (List Polygon)
  | [] => []
  | PolyNode.node _ ggcs :: rest =>
    processPolyTreeChildren ggcs ++ processPolyTreeGrandchildren rest

end

/-- Shape::splitIntoParts (shape.cpp:726-739): the Clipper union producing
the nesting forest is the external parameter `unionTree` (its Bool is the
unionAll flag selecting the nonzero fill rule); the tree walk is the
source's. -/
def splitIntoParts (unionTree : Shape → Bool → List PolyNode) (s : Shape)
    (unionAll : Bool) : List (List Polygon) :=
  processPolyTreeChildren (unionTree s unionAll)

/-- Modelled from the spec (§3): the axis-aligned bounding box recomputed
from an outline (AABB::calculate is not under src/); `none` for an outline
with no vertices. -/
def calcBoundaryBox (s : Shape) : Option (Point2LL × Point2LL) :=
  match shapeVertices s with
  | [] => none
  | v :: vs =>
    some (vs.foldl
      (fun bb p => (⟨min bb.1.x p.x, min bb.1.y p.y⟩, ⟨max bb.2.x p.x, max bb.2.y p.y⟩))
      (v, v))

/-- A set of open polylines (OpenLinesSet of the source). -/
abbrev OpenLinesSet := List (List Point2LL)

/-- SliceLayerPart: outline, derived bounding box, attached fiber line
sets. -/
structure SliceLayerPart where
  outline : Shape
  boundaryBox : Option (Point2LL × Point2LL)
  fiberpath : List OpenLinesSet
deriving DecidableEq, Repr

/-- The default-constructed SliceLayerPart pushed by
storageLayer.parts.emplace_back(). -/
def emptyPart : SliceLayerPart := { outline := [], boundaryBox := none, fiberpath := [] }

/-- The materialize loop of createLayerWithParts (layerPart.cpp:68-81),
kept faithful to the source order: the default part is emplaced BEFORE the
part.empty() test, so the `continue` on an empty region leaves that
default part in the list; for a non-empty region the outline is assigned
and the (then unreachable) pop_back drops the entry again if the assigned
outline is empty. -/
def materializeParts : List SliceLayerPart → List (List Polygon) → List SliceLayerPart
  | parts, [] => parts
  | parts, part :: rest =>
    if part.isEmpty then materializeParts (parts ++ [emptyPart]) rest
    else
      let built : SliceLayerPart :=
        { outline := part, boundaryBox := calcBoundaryBox part, fiberpath := [] }
      if built.outline.isEmpty then materializeParts parts rest
      else materializeParts (parts ++ [built]) rest

/-- The settings consumed by createLayerWithParts:
meshfix_union_all_remove_holes, meshfix_union_all, and whether
magic_mesh_surface_mode == ESurfaceMode::SURFACE. -/
structure LayerSettings where
  union_all_remove_holes : Bool
  union_layers : Bool
  surfaceOnly : Bool

/-- The orientation fix-up of createLayerWithParts (layerPart.cpp:37-45).
Polygon::orientation() is the ClipperLib::Orientation contract (not under
src/): true iff the signed area is non-negative; such polygons are
reversed. -/
def orientFix (urh : Bool) (polys : List Polygon) : List Polygon :=
  if urh then polys.map (fun poly => if 0 ≤ area2 poly then poly.reverse else poly)
  else polys

/-- createLayerWithParts (layerPart.cpp:31-82) from the post-stitch
polygon list on: orientation fix-up, split policy (surface-only verbatim
parts vs nesting decomposition), then the materialize loop into the
layer's (fresh) parts list. -/
def createLayerWithParts (st : LayerSettings)
    (unionTree : Shape → Bool → List PolyNode) (polygons : List Polygon) :
    List SliceLayerPart :=
  let polys := orientFix st.union_all_remove_holes polygons
  let result : List (List Polygon) :=
    if st.surfaceOnly && !st.union_layers then
      (polys.filter (fun poly => !poly.isEmpty)).map (fun poly => [poly])
    else
      splitIntoParts unionTree polys (st.union_layers || st.union_all_remove_holes)
  materializeParts [] result

/-! ## insertFiberPath (layerPart.cpp:84-107) -/

/-- FiberPath (include/fiberpath.h): the line set of one z height. -/
structure FiberPath where
  paths : OpenLinesSet
  z : Int
deriving DecidableEq, Repr

/-- FiberPaths (include/fiberpath.h). -/
structure FiberPaths where
  paths : List FiberPath
deriving DecidableEq, Repr

/-- One slice layer as used by insertFiberPath. -/
structure SliceLayer where
  printZ : Int
  thickness : Int
  parts : List SliceLayerPart
deriving DecidableEq, Repr

/-- Per-mesh layer storage. -/
structure SliceMeshStorage where
  layers : List SliceLayer
deriving DecidableEq, Repr

/-- The z-match test of insertFiberPath (layerPart.cpp:92-93) with the C++
unsigned arithmetic explicit: match_z and z_height are size_t, so
match_z - z_height wraps modulo 2^64 before std::fabs sees it (the
conversion of the wrapped value to double cannot change the comparison
against any int64-derived threshold and is modelled as exact);
`layer.thickness / 2 - 1` is int64 arithmetic, hence Int.tdiv. -/
def fiberZMatches (match_z z_height thickness : Int) : Bool :=
  (match_z - z_height) % (2 ^ 64) < Int.tdiv thickness 2 - 1

/-- Inner part loop of insertFiberPath (layerPart.cpp:95-102): clip the
fiber line set against each part's outline (`lineCut` abstracts the
external LinesSet::lineCut clipping); a non-empty result is attached. -/
def clipFiberIntoParts (lineCut : OpenLinesSet → Shape → OpenLinesSet)
    (fp : FiberPath) (parts : List SliceLayerPart) : List SliceLayerPart :=
  parts.map fun part =>
    let resLines := lineCut fp.paths part.outline
    if 0 < resLines.length then { part with fiberpath := part.fiberpath ++ [resLines] }
    else part

/-- Per-layer fiber loop of insertFiberPath (layerPart.cpp:88-105). -/
def processLayerFibers (lineCut : OpenLinesSet → Shape → OpenLinesSet)
    (fps : List FiberPath) (layer : SliceLayer) : SliceLayer :=
  fps.foldl
    (fun ly fp =>
      if fiberZMatches fp.z ly.printZ ly.thickness then
        { ly with parts := clipFiberIntoParts lineCut fp ly.parts }
      else ly)
    layer

/-- insertFiberPath (layerPart.cpp:84-107).  The loop bound
`meshStorage.layers.size() - 1` is size_t arithmetic: for an empty layer
list it wraps to 2^64 - 1 and the first body access layers[0] is out of
bounds, modelled as `none`; otherwise the loop covers exactly the layer
indices 0 .. size-2. -/
def insertFiberPath (lineCut : OpenLinesSet → Shape → OpenLinesSet)
    (mesh : SliceMeshStorage) (fiber : FiberPaths) : Option SliceMeshStorage :=
  let n := mesh.layers.length
  let bound := (n + 2 ^ 64 - 1) % 2 ^ 64
  if bound ≤ n then
    some { layers :=
      (mesh.layers.take bound).map (processLayerFibers lineCut fiber.paths)
        ++ mesh.layers.drop bound }
  else none

/-! ## Reference predicates for the makeConvex claim

These two definitions follow the claim's words ("convex closed polygon",
"contains every vertex of the input inside or on its boundary") to be
compared with the behaviour of the source-translated makeConvex. -/

/-- The cyclic turn cross products of a closed polygon: for every vertex
triple (v, v', v'') the amount v'' is left of the line v → v'. -/
def polyTurns (poly : Polygon) : List Int :=
  List.zipWith3 (fun a b c => pointIsLeftOfLine c a b) poly (poly.rotate 1) (poly.rotate 2)

/-- Weak convexity, following the claim text: no two turns of strictly
opposite orientation. -/
def isConvexPoly (poly : Polygon) : Bool :=
  !((polyTurns poly).any fun t => decide (0 < t)) ||
    !((polyTurns poly).any fun t => decide (t < 0))

/-- Containment in a (weakly convex) closed polygon, following the claim
text: the point is on the inner side of every edge, for one of the two
possible orientations of the polygon. -/
def insideOrOnConvex (poly : Polygon) (p : Point2LL) : Bool :=
  ((polyEdges poly).all fun e => decide (0 ≤ pointIsLeftOfLine p e.1 e.2)) ||
    ((polyEdges poly).all fun e => decide (pointIsLeftOfLine p e.1 e.2 ≤ 0))

/-! # Theorems -/

/-- C1: the claimed equivalence `inside(S, p, true) = (findInside(S, p, true)
≠ NOT_FOUND)` fails on the empty Shape: the `return false;` of findInside
(shape.cpp:171) converts to size_t index 0 rather than NO_INDEX, while
inside returns false, so the right-hand side is true and the left-hand side
false. -/
theorem C1_empty_shape_breaks_equivalence :
    inside ([] : Shape) ⟨3, 4⟩ true = false ∧
    findInside ([] : Shape) ⟨3, 4⟩ true = some 0 ∧
    ¬ (inside ([] : Shape) ⟨3, 4⟩ true = true ↔
        findInside ([] : Shape) ⟨3, 4⟩ true ≠ none) := by decide

/-- C3: the z-match of insertFiberPath (layerPart.cpp:93) computes
match_z - z_height on size_t, so a fiber height 40 units BELOW printZ
(wrapping to 2^64 - 40) never matches, while the mirrored height 40 units
above does; on a 2-layer mesh with printZ = 100, thickness = 100, a fiber
set at z = 60 is attached nowhere even though |60 - 100| < 100/2 - 1, and
the whole mesh comes back unchanged. -/
theorem C3_fiber_below_printZ_never_attaches :
    ((140 : Int) - 100).natAbs = ((60 : Int) - 100).natAbs ∧
    fiberZMatches 140 100 100 = true ∧
    fiberZMatches 60 100 100 = false ∧
    (|(60 : Int) - 100| < Int.tdiv 100 2 - 1) ∧
    insertFiberPath (fun lines _ => lines)
      ⟨[⟨100, 100, [⟨[[⟨0, 0⟩, ⟨10, 0⟩, ⟨0, 10⟩]], none, []⟩]⟩, ⟨200, 100, []⟩]⟩
      ⟨[⟨[[⟨1, 1⟩, ⟨2, 2⟩]], 60⟩]⟩
      = some ⟨[⟨100, 100, [⟨[[⟨0, 0⟩, ⟨10, 0⟩, ⟨0, 10⟩]], none, []⟩]⟩, ⟨200, 100, []⟩]⟩ ∧
    insertFiberPath (fun lines _ => lines)
      ⟨[⟨100, 100, [⟨[[⟨0, 0⟩, ⟨10, 0⟩, ⟨0, 10⟩]], none, []⟩]⟩, ⟨200, 100, []⟩]⟩
      ⟨[⟨[[⟨1, 1⟩, ⟨2, 2⟩]], 140⟩]⟩
      = some ⟨[⟨100, 100,
          [⟨[[⟨0, 0⟩, ⟨10, 0⟩, ⟨0, 10⟩]], none, [[[⟨1, 1⟩, ⟨2, 2⟩]]]⟩]⟩, ⟨200, 100, []⟩]⟩ := by
  decide

/-- C6 counterexample: with the spec-modelled chord-budget smoother and a
large budget, a 4-point square smooths down below 3 points; Shape::smooth
truncates the result by one point and KEEPS it, so the output contains a
polygon with fewer than 3 points, contradicting the claim. -/
theorem C6_smooth_keeps_degenerate :
    smooth (polySmoothModel 1000) [[⟨0, 0⟩, ⟨10, 0⟩, ⟨10, 10⟩, ⟨0, 10⟩]] = [[]] ∧
    ∃ q ∈ smooth (polySmoothModel 1000) [[⟨0, 0⟩, ⟨10, 0⟩, ⟨10, 10⟩, ⟨0, 10⟩]],
      q.length < 3 := by decide

/-- Sizes invariant of the smooth_outward loop: starting from an
accumulator of only ≥3-point polygons, every output polygon has at least
3 points. -/
theorem smoothOutwardLoop_sizes (polySm : Polygon → Polygon) :
    ∀ (polys : List Polygon) (ret : Shape), (∀ q ∈ ret, 3 ≤ q.length) →
      ∀ q ∈ smoothOutwardLoop polySm polys ret, 3 ≤ q.length := by
  intro polys
  induction polys with
  | nil => intro ret h q hq; simpa [smoothOutwardLoop] using h q hq
  | cons poly rest ih =>
    intro ret h q hq
    simp only [smoothOutwardLoop] at hq
    split_ifs at hq with h1 h2 h3
    · exact ih ret h q hq
    · refine ih _ ?_ q hq
      intro q2 hq2
      rcases List.mem_append.1 hq2 with h4 | h4
      · exact h q2 h4
      · simp only [List.mem_singleton] at h4; subst h4; omega
    · exact ih ret h q hq
    · refine ih _ ?_ q hq
      intro q2 hq2
      rcases List.mem_append.1 hq2 with h4 | h4
      · exact h q2 h4
      · simp only [List.mem_singleton] at h4; subst h4; omega

/-- Sizes invariant of the smooth loop: every output polygon has at least
3 points or at most 1 point (the truncated sub-3 results). -/
theorem smoothLoop_sizes (polySm : Polygon → Polygon) :
    ∀ (polys : List Polygon) (ret : Shape),
      (∀ q ∈ ret, 3 ≤ q.length ∨ q.length ≤ 1) →
      ∀ q ∈ smoothLoop polySm polys ret, 3 ≤ q.length ∨ q.length ≤ 1 := by
  intro polys
  induction polys with
  | nil => intro ret h q hq; simpa [smoothLoop] using h q hq
  | cons poly rest ih =>
    intro ret h q hq
    simp only [smoothLoop] at hq
    split_ifs at hq with h1 h2 h3
    · exact ih ret h q hq
    · refine ih _ ?_ q hq
      intro q2 hq2
      rcases List.mem_append.1 hq2 with h4 | h4
      · exact h q2 h4
      · simp only [List.mem_singleton] at h4; subst h4; omega
    · refine ih _ ?_ q hq
      intro q2 hq2
      rcases List.mem_append.1 hq2 with h4 | h4
      · exact h q2 h4
      · simp only [List.mem_singleton] at h4; subst h4
        right
        simp only [List.length_take]
        omega
    · refine ih _ ?_ q hq
      intro q2 hq2
      rcases List.mem_append.1 hq2 with h4 | h4
      · exact h q2 h4
      · simp only [List.mem_singleton] at h4; subst h4; omega

/-- Input polygons with fewer than 3 points do not influence
smooth_outward. -/
theorem smoothOutwardLoop_skip (polySm : Polygon → Polygon) :
    ∀ (polys : List Polygon) (ret : Shape),
      smoothOutwardLoop polySm polys ret =
        smoothOutwardLoop polySm (polys.filter (fun poly => decide (3 ≤ poly.length))) ret := by
  intro polys
  induction polys with
  | nil => intro ret; rfl
  | cons poly rest ih =>
    intro ret
    by_cases h1 : poly.length < 3
    · have hf : (decide (3 ≤ poly.length)) = false := by simp; omega
      simp only [smoothOutwardLoop, List.filter_cons, hf, if_pos h1, Bool.false_eq_true,
        if_false]
      exact ih ret
    · have hf : (decide (3 ≤ poly.length)) = true := by simp; omega
      simp only [smoothOutwardLoop, List.filter_cons, hf, if_neg h1, if_true]
      split_ifs <;> apply ih

/-- Input polygons with fewer than 3 points do not influence smooth. -/
theorem smoothLoop_skip (polySm : Polygon → Polygon) :
    ∀ (polys : List Polygon) (ret : Shape),
      smoothLoop polySm polys ret =
        smoothLoop polySm (polys.filter (fun poly => decide (3 ≤ poly.length))) ret := by
  intro polys
  induction polys with
  | nil => intro ret; rfl
  | cons poly rest ih =>
    intro ret
    by_cases h1 : poly.length < 3
    · have hf : (decide (3 ≤ poly.length)) = false := by simp; omega
      simp only [smoothLoop, List.filter_cons, hf, if_pos h1, Bool.false_eq_true, if_false]
      exact ih ret
    · have hf : (decide (3 ≤ poly.length)) = true := by simp; omega
      simp only [smoothLoop, List.filter_cons, hf, if_neg h1, if_true]
      split_ifs <;> apply ih

/-- C6 (amended): for every per-polygon smoother, smooth_outward outputs
only polygons with at least 3 points and skips sub-3-point inputs; smooth
also skips sub-3-point inputs, but a smoothed result that fell below 3
points is truncated by one point and kept, so its outputs have either at
least 3 points or at most 1 point. -/
theorem C6_smoothing_degenerate_handling (polySm : Polygon → Polygon) (s : Shape) :
    (∀ q ∈ smooth_outward polySm s, 3 ≤ q.length) ∧
    (∀ q ∈ smooth polySm s, 3 ≤ q.length ∨ q.length ≤ 1) ∧
    smooth_outward polySm s =
      smooth_outward polySm (s.filter (fun poly => decide (3 ≤ poly.length))) ∧
    smooth polySm s = smooth polySm (s.filter (fun poly => decide (3 ≤ poly.length))) := by
  refine ⟨?_, ?_, ?_, ?_⟩
  · exact smoothOutwardLoop_sizes polySm s [] (by simp)
  · exact smoothLoop_sizes polySm s [] (by simp)
  · exact smoothOutwardLoop_skip polySm s []
  · exact smoothLoop_skip polySm s []

/-- C7 counterexample: in surface-only mode with no union, an empty raw
polygon is skipped, so a layer with two raw polygons (one empty) yields
one part, not two — the parts are not in one-to-one correspondence with
the raw polygons. -/
theorem C7_empty_polygon_breaks_bijection :
    (createLayerWithParts ⟨false, false, true⟩ (fun _ _ => [])
      [[], [⟨0, 0⟩, ⟨10, 0⟩, ⟨0, 10⟩]]).length = 1 ∧
    ([([] : Polygon), [⟨0, 0⟩, ⟨10, 0⟩, ⟨0, 10⟩]].length = 2) := by decide

/-- The materialize loop on a list of non-empty regions appends exactly
one part per region, with outline the region itself. -/
theorem materializeParts_nonempty_eq :
    ∀ (result : List (List Polygon)) (acc : List SliceLayerPart),
      (∀ p ∈ result, p ≠ []) →
      materializeParts acc result =
        acc ++ result.map (fun part =>
          ({ outline := part, boundaryBox := calcBoundaryBox part, fiberpath := [] }
            : SliceLayerPart)) := by
  intro result
  induction result with
  | nil => intro acc _; simp [materializeParts]
  | cons part rest ih =>
    intro acc h
    have hne : part ≠ [] := h part (by simp)
    have hie : part.isEmpty = false := by
      cases part with
      | nil => exact absurd rfl hne
      | cons a as => rfl
    simp only [materializeParts, hie, Bool.false_eq_true, if_false]
    rw [ih _ (fun p hp => h p (by simp [hp]))]
    simp

/-- C7 (amended): in surface-only mode with no union (and no
union-remove-holes), each NON-empty raw polygon becomes its own part
verbatim — outline exactly that single polygon, bounding box recomputed —
and empty raw polygons are skipped; no boolean processing is applied. -/
theorem C7_surface_verbatim_parts (st : LayerSettings)
    (unionTree : Shape → Bool → List PolyNode) (polygons : List Polygon)
    (h1 : st.surfaceOnly = true) (h2 : st.union_layers = false)
    (h3 : st.union_all_remove_holes = false) :
    createLayerWithParts st unionTree polygons =
      (polygons.filter (fun poly => !poly.isEmpty)).map (fun poly =>
        ({ outline := [poly], boundaryBox := calcBoundaryBox [poly], fiberpath := [] }
          : SliceLayerPart)) := by
  unfold createLayerWithParts orientFix
  rw [h1, h2, h3]
  simp only [Bool.false_eq_true, if_false, Bool.not_false, Bool.and_true]
  rw [materializeParts_nonempty_eq _ _ (by intro p hp; simp at hp; obtain ⟨a, _, rfl⟩ := hp; simp)]
  simp [List.map_map]

/-- C7 witness: the amended statement applied to a concrete layer with one
empty and one non-empty raw polygon. -/
theorem C7_surface_verbatim_parts_witness :
    createLayerWithParts ⟨false, false, true⟩ (fun _ _ => [])
      [[], [⟨0, 0⟩, ⟨10, 0⟩, ⟨0, 10⟩]] =
      ([([] : Polygon), [⟨0, 0⟩, ⟨10, 0⟩, ⟨0, 10⟩]].filter
        (fun poly => !poly.isEmpty)).map (fun poly =>
        ({ outline := [poly], boundaryBox := calcBoundaryBox [poly], fiberpath := [] }
          : SliceLayerPart)) :=
  C7_surface_verbatim_parts ⟨false, false, true⟩ (fun _ _ => [])
    [[], [⟨0, 0⟩, ⟨10, 0⟩, ⟨0, 10⟩]] rfl rfl rfl

mutual

/-- Every part emitted by the splitIntoParts tree walk starts with the
node's contour, hence is a non-empty polygon list. -/
theorem processChildren_parts_nonempty :
    ∀ nodes : List PolyNode, ∀ p ∈ processPolyTreeChildren nodes, p ≠ []
  | [] => by simp [processPolyTreeChildren]
  | PolyNode.node c gcs :: siblings => by
    intro p hp
    simp only [processPolyTreeChildren, List.mem_append, List.mem_singleton] at hp
    rcases hp with (h | h) | h
    · exact processGrand_parts_nonempty gcs p h
    · subst h; simp
    · exact processChildren_parts_nonempty siblings p h

/-- Grandchild recursion version of processChildren_parts_nonempty. -/
theorem processGrand_parts_nonempty :
    ∀ nodes : List PolyNode, ∀ p ∈ processPolyTreeGrandchildren nodes, p ≠ []
  | [] => by simp [processPolyTreeGrandchildren]
  | PolyNode.node _ ggcs :: rest => by
    intro p hp
    simp only [processPolyTreeGrandchildren, List.mem_append] at hp
    rcases hp with h | h
    · exact processChildren_parts_nonempty ggcs p h
    · exact processGrand_parts_nonempty rest p h

end

/-- C5: every part stored by createLayerWithParts has a non-empty outline:
both split policies produce only non-empty region polygon lists and the
materialize loop turns each into a part whose outline is that list. -/
theorem C5_stored_parts_have_nonempty_outline (st : LayerSettings)
    (unionTree : Shape → Bool → List PolyNode) (polygons : List Polygon) :
    ∀ part ∈ createLayerWithParts st unionTree polygons, part.outline ≠ [] := by
  intro part hp
  unfold createLayerWithParts at hp
  set polys := orientFix st.union_all_remove_holes polygons with hpolys
  set result : List (List Polygon) :=
    (if st.surfaceOnly && !st.union_layers then
      (polys.filter (fun poly => !poly.isEmpty)).map (fun poly => [poly])
    else
      splitIntoParts unionTree polys (st.union_layers || st.union_all_remove_holes))
    with hresult
  have hres : ∀ p ∈ result, p ≠ [] := by
    rw [hresult]
    split_ifs
    · intro p hp2
      simp only [List.mem_map] at hp2
      obtain ⟨a, _, rfl⟩ := hp2
      simp
    · intro p hp2
      exact processChildren_parts_nonempty _ p hp2
  rw [materializeParts_nonempty_eq result [] hres] at hp
  simp only [List.nil_append, List.mem_map] at hp
  obtain ⟨p0, hmem, rfl⟩ := hp
  exact hres p0 hmem

/-- Witness for C5 at a concrete surface-mode layer holding one triangle:
the single stored part has that triangle as its non-empty outline. -/
theorem C5_stored_parts_have_nonempty_outline_witness :
    ({ outline := [[(⟨0, 0⟩ : Point2LL), ⟨10, 0⟩, ⟨10, 10⟩]],
       boundaryBox := calcBoundaryBox [[(⟨0, 0⟩ : Point2LL), ⟨10, 0⟩, ⟨10, 10⟩]],
       fiberpath := [] } : SliceLayerPart).outline ≠ [] :=
  C5_stored_parts_have_nonempty_outline ⟨false, false, true⟩ (fun _ _ => [])
    [[⟨0, 0⟩, ⟨10, 0⟩, ⟨10, 10⟩]]
    { outline := [[(⟨0, 0⟩ : Point2LL), ⟨10, 0⟩, ⟨10, 10⟩]],
      boundaryBox := calcBoundaryBox [[(⟨0, 0⟩ : Point2LL), ⟨10, 0⟩, ⟨10, 10⟩]],
      fiberpath := [] }
    (by decide)

/-- Every vertex read of the inner offsetMulti loop is in bounds: the loop
consumes exactly one distance per vertex and ends at index i + |ps|. -/
theorem offsetMultiPoints_total (dists : List Int) :
    ∀ (ps : List Point2LL) (prev_p : Point2LL) (prev_dist : Int) (i : Nat),
      i + ps.length ≤ dists.length →
      ∃ poly, offsetMultiPoints dists ps prev_p prev_dist i = some (poly, i + ps.length) := by
  intro ps
  induction ps with
  | nil => intro _ _ i _; exact ⟨[], by simp [offsetMultiPoints]⟩
  | cons p ps ih =>
    intro prev_p prev_dist i hle
    have hi : i < dists.length := by simp only [List.length_cons] at hle; omega
    cases hget : dists.get? i with
    | none =>
      rw [List.get?_eq_none] at hget
      omega
    | some d =>
      obtain ⟨poly, hp⟩ := ih p d (i + 1) (by simp only [List.length_cons] at hle; omega)
      have harith : i + 1 + ps.length = i + (p :: ps).length := by simp; omega
      refine ⟨(if 10 * 10 < vSize2 (prev_p - p) then
        [prev_p + turn90CCW (normal (prev_p - p) prev_dist),
          p + turn90CCW (normal (prev_p - p) d)] else []) ++ poly, ?_⟩
      rw [← harith]
      simp only [offsetMultiPoints, hget, hp]

/-- Every read of the outer offsetMulti loop (the wrap-around distance at
i + size - 1 and the per-vertex reads) is in bounds when the distance list
covers all remaining vertices. -/
theorem offsetMultiPaths_total (dists : List Int) :
    ∀ (paths : List Polygon) (i : Nat),
      i + (paths.map List.length).sum ≤ dists.length →
      (offsetMultiPaths dists paths i).isSome = true := by
  intro paths
  induction paths with
  | nil => intro i _; simp [offsetMultiPaths]
  | cons path rest ih =>
    intro i hle
    simp only [List.map_cons, List.sum_cons] at hle
    by_cases hpe : path.isEmpty
    · have hnil : path = [] := by
        cases path with
        | nil => rfl
        | cons a as => simp [List.isEmpty] at hpe
      simp only [offsetMultiPaths, hpe, if_true]
      apply ih
      subst hnil
      simp only [List.length_nil] at hle
      omega
    · have hlen : 1 ≤ path.length := by
        cases path with
        | nil => simp [List.isEmpty] at hpe
        | cons a as => simp
      have hidx : i + path.length - 1 < dists.length := by omega
      simp only [offsetMultiPaths, hpe, Bool.false_eq_true, if_false]
      cases hget : dists.get? (i + path.length - 1) with
      | none =>
        rw [List.get?_eq_none] at hget
        omega
      | some pd =>
        obtain ⟨poly, hp⟩ := offsetMultiPoints_total dists path (path.getLastD ⟨0, 0⟩) pd i
          (by omega)
        have hrest := ih (i + path.length) (by omega)
        cases hrec : offsetMultiPaths dists rest (i + path.length) with
        | none => rw [hrec] at hrest; simp at hrest
        | some restRet =>
          simp only [List.getLastD_eq_getLast?] at hp
          simp [hp, hrec]

/-- C9: when the per-vertex offset-distance list has exactly one entry per
vertex of the Shape, the offsetMulti assertion holds and every read of the
list (index i and the wrap-around index i + size - 1 of each non-empty
path) is in bounds, so the computation completes; with a mismatched length
the precondition violation is the fatal assertion (none), not a
recoverable result. -/
theorem C9_offsetMulti_assert_and_bounds (simplify : Shape → Shape) (s : Shape)
    (dists : List Int) (h : pointCount s = dists.length) :
    (offsetMulti simplify s dists).isSome = true ∧
    ∀ dists2 : List Int, pointCount s ≠ dists2.length →
      offsetMulti simplify s dists2 = none := by
  constructor
  · unfold offsetMulti
    rw [if_pos h]
    have htot : (0 : Nat) + (s.map List.length).sum ≤ dists.length := by
      have hpc : pointCount s = (s.map List.length).sum := by
        simp [pointCount, shapeVertices]
      omega
    have := offsetMultiPaths_total dists s 0 htot
    cases hres : offsetMultiPaths dists s 0 with
    | none => rw [hres] at this; simp at this
    | some ret => simp
  · intro dists2 h2
    unfold offsetMulti
    rw [if_neg h2]

/-- C9 witness: a triangle with one distance per vertex completes, and a
mismatched list is rejected. -/
theorem C9_offsetMulti_assert_and_bounds_witness :
    pointCount [[⟨0, 0⟩, ⟨100, 0⟩, ⟨0, 100⟩]] = [(5 : Int), 5, 5].length ∧
    (offsetMulti id [[⟨0, 0⟩, ⟨100, 0⟩, ⟨0, 100⟩]] [5, 5, 5]).isSome = true ∧
    offsetMulti id [[⟨0, 0⟩, ⟨100, 0⟩, ⟨0, 100⟩]] [5, 5] = none :=
  ⟨by decide,
    (C9_offsetMulti_assert_and_bounds id [[⟨0, 0⟩, ⟨100, 0⟩, ⟨0, 100⟩]] [5, 5, 5]
      (by decide)).1,
    (C9_offsetMulti_assert_and_bounds id [[⟨0, 0⟩, ⟨100, 0⟩, ⟨0, 100⟩]] [5, 5, 5]
      (by decide)).2 [5, 5] (by decide)⟩

/-- Frame property of the per-layer fiber loop: printZ, thickness and the
number of parts never change, and a part all of whose matching fiber sets
clip to the empty line set is left exactly as it was. -/
theorem processLayerFibers_frame (lineCut : OpenLinesSet → Shape → OpenLinesSet)
    (fps : List FiberPath) :
    ∀ ly : SliceLayer,
      (processLayerFibers lineCut fps ly).printZ = ly.printZ ∧
      (processLayerFibers lineCut fps ly).thickness = ly.thickness ∧
      (processLayerFibers lineCut fps ly).parts.length = ly.parts.length ∧
      ∀ j part, ly.parts.get? j = some part →
        (∀ fp ∈ fps, fiberZMatches fp.z ly.printZ ly.thickness = true →
          lineCut fp.paths part.outline = []) →
        (processLayerFibers lineCut fps ly).parts.get? j = some part := by
  induction fps with
  | nil => intro ly; simp [processLayerFibers]
  | cons fp rest ih =>
    intro ly
    have hstep : processLayerFibers lineCut (fp :: rest) ly =
        processLayerFibers lineCut rest
          (if fiberZMatches fp.z ly.printZ ly.thickness = true then
            { ly with parts := clipFiberIntoParts lineCut fp ly.parts }
          else ly) := by
      simp only [processLayerFibers, List.foldl_cons]
    by_cases hm : fiberZMatches fp.z ly.printZ ly.thickness = true
    · rw [hstep, if_pos hm]
      set ly1 : SliceLayer := { ly with parts := clipFiberIntoParts lineCut fp ly.parts }
        with hly1
      obtain ⟨hz, ht, hl, hparts⟩ := ih ly1
      have hz1 : ly1.printZ = ly.printZ := rfl
      have ht1 : ly1.thickness = ly.thickness := rfl
      have hl1 : ly1.parts.length = ly.parts.length := by
        simp [hly1, clipFiberIntoParts]
      refine ⟨by rw [hz, hz1], by rw [ht, ht1], by rw [hl, hl1], ?_⟩
      intro j part hj hcuts
      have hcut0 : lineCut fp.paths part.outline = [] := hcuts fp (by simp) hm
      have hj1 : ly1.parts.get? j = some part := by
        simp only [hly1, clipFiberIntoParts, List.get?_map, hj]
        simp [hcut0]
      exact hparts j part hj1 (by
        intro fp2 hfp2 hm2
        exact hcuts fp2 (by simp [hfp2]) (by rw [hz1] at hm2; rw [ht1] at hm2; exact hm2))
    · rw [hstep, if_neg hm]
      obtain ⟨hz, ht, hl, hparts⟩ := ih ly
      refine ⟨hz, ht, hl, ?_⟩
      intro j part hj hcuts
      exact hparts j part hj (fun fp2 hfp2 hm2 => hcuts fp2 (by simp [hfp2]) hm2)

/-- C10: insertFiberPath processes only the layer indices
0 .. layers.size() - 2, so for a non-empty mesh it succeeds, preserves the
number of layers and leaves the LAST layer exactly as it was; moreover on
every processed layer printZ, thickness and the part count are unchanged,
and any part whose matching fiber sets all clip to the empty line set is
left unchanged. -/
theorem C10_insertFiberPath_last_layer_frame
    (lineCut : OpenLinesSet → Shape → OpenLinesSet) (mesh : SliceMeshStorage)
    (fiber : FiberPaths) (h : mesh.layers ≠ []) :
    ∃ out, insertFiberPath lineCut mesh fiber = some out ∧
      out.layers.length = mesh.layers.length ∧
      out.layers.getLast? = mesh.layers.getLast? ∧
      ∀ i ly, mesh.layers.get? i = some ly →
        ∃ ly2, out.layers.get? i = some ly2 ∧
          ly2.printZ = ly.printZ ∧ ly2.thickness = ly.thickness ∧
          ly2.parts.length = ly.parts.length ∧
          ∀ j part, ly.parts.get? j = some part →
            (∀ fp ∈ fiber.paths,
              fiberZMatches fp.z ly.printZ ly.thickness = true →
              lineCut fp.paths part.outline = []) →
            ly2.parts.get? j = some part := by
  have hn : 1 ≤ mesh.layers.length := by
    cases hml : mesh.layers with
    | nil => exact absurd hml h
    | cons a as => simp [hml]
  set n := mesh.layers.length with hdefn
  set bound := (n + 2 ^ 64 - 1) % 2 ^ 64 with hdefb
  have hb : bound ≤ n - 1 := by omega
  have hout : insertFiberPath lineCut mesh fiber =
      some { layers := (mesh.layers.take bound).map (processLayerFibers lineCut fiber.paths)
        ++ mesh.layers.drop bound } := by
    unfold insertFiberPath
    rw [if_pos (by omega)]
  refine ⟨_, hout, ?_, ?_, ?_⟩
  · simp only [List.length_append, List.length_map, List.length_take, List.length_drop]
    omega
  · have hdne : mesh.layers.drop bound ≠ [] := by
      intro hcon
      have := congrArg List.length hcon
      simp only [List.length_drop, List.length_nil] at this
      omega
    have hlast : (mesh.layers.drop bound).getLast? = mesh.layers.getLast? := by
      rw [List.getLast?_eq_get?, List.getLast?_eq_get?, List.get?_drop]
      have hidx : bound + ((mesh.layers.drop bound).length - 1) = mesh.layers.length - 1 := by
        simp only [List.length_drop]
        omega
      rw [hidx]
    have hsome : ∃ x, mesh.layers.getLast? = some x :=
      Option.isSome_iff_exists.1 (List.getLast?_isSome.2 h)
    obtain ⟨x, hx⟩ := hsome
    simp only [List.getLast?_append]
    rw [hlast, hx]
    rfl
  · intro i ly hi
    by_cases hib : i < bound
    · have hfirst : ((mesh.layers.take bound).map
          (processLayerFibers lineCut fiber.paths)).get? i =
          some (processLayerFibers lineCut fiber.paths ly) := by
        rw [List.get?_map, List.get?_take hib, hi]
        rfl
      refine ⟨processLayerFibers lineCut fiber.paths ly, ?_, ?_⟩
      · rw [List.get?_append]
        · exact hfirst
        · simp only [List.length_map, List.length_take]
          omega
      · obtain ⟨hz, ht, hl, hparts⟩ := processLayerFibers_frame lineCut fiber.paths ly
        exact ⟨hz, ht, hl, hparts⟩
    · refine ⟨ly, ?_, rfl, rfl, rfl, fun j part hj _ => hj⟩
      rw [List.get?_append_right (by simp only [List.length_map, List.length_take]; omega)]
      simp only [List.length_map, List.length_take]
      rw [List.get?_drop]
      have hidx : bound + (i - min bound mesh.layers.length) = i := by omega
      rw [hidx]
      exact hi

/-- C10 witness: a concrete 2-layer mesh with one fiber set; the last
layer and the empty-clip part are preserved. -/
theorem C10_insertFiberPath_last_layer_frame_witness :
    ([⟨100, 100, [emptyPart]⟩, ⟨200, 100, []⟩] : List SliceLayer) ≠ [] ∧
    ∃ out, insertFiberPath (fun _ _ => []) ⟨[⟨100, 100, [emptyPart]⟩, ⟨200, 100, []⟩]⟩
        ⟨[⟨[[⟨1, 1⟩, ⟨2, 2⟩]], 110⟩]⟩ = some out ∧
      out.layers.length = ([⟨100, 100, [emptyPart]⟩, ⟨200, 100, []⟩] : List SliceLayer).length ∧
      out.layers.getLast? =
        ([⟨100, 100, [emptyPart]⟩, ⟨200, 100, []⟩] : List SliceLayer).getLast? ∧
      ∀ i ly, ([⟨100, 100, [emptyPart]⟩, ⟨200, 100, []⟩] : List SliceLayer).get? i = some ly →
        ∃ ly2, out.layers.get? i = some ly2 ∧
          ly2.printZ = ly.printZ ∧ ly2.thickness = ly.thickness ∧
          ly2.parts.length = ly.parts.length ∧
          ∀ j part, ly.parts.get? j = some part →
            (∀ fp ∈ ([⟨[[⟨1, 1⟩, ⟨2, 2⟩]], 110⟩] : List FiberPath),
              fiberZMatches fp.z ly.printZ ly.thickness = true →
              (fun (_ : OpenLinesSet) (_ : Shape) => ([] : OpenLinesSet)) fp.paths part.outline
                = []) →
            ly2.parts.get? j = some part :=
  ⟨by decide,
    C10_insertFiberPath_last_layer_frame (fun _ _ => [])
      ⟨[⟨100, 100, [emptyPart]⟩, ⟨200, 100, []⟩]⟩ ⟨[⟨[[⟨1, 1⟩, ⟨2, 2⟩]], 110⟩]⟩ (by decide)⟩

/-- C8 counterexample: makeConvex is not a convex hull.  On the 4-point
polygon (1,2),(1,1),(0,0),(2,0) the result is the triangle
(0,0),(1,1),(1,2), which is convex but leaves the input vertex (2,0)
strictly outside; and on (0,0),(2,3),(1,0),(1,1) the resulting single
polygon is not even convex.  (The inner while loop's closing-point
condition pops true hull vertices, here the maximal vertex (2,0).) -/
theorem C8_makeConvex_counterexample :
    makeConvex [[⟨1, 2⟩, ⟨1, 1⟩, ⟨0, 0⟩, ⟨2, 0⟩]] = some [[⟨0, 0⟩, ⟨1, 1⟩, ⟨1, 2⟩]] ∧
    isConvexPoly [⟨0, 0⟩, ⟨1, 1⟩, ⟨1, 2⟩] = true ∧
    (⟨2, 0⟩ : Point2LL) ∈ shapeVertices [[⟨1, 2⟩, ⟨1, 1⟩, ⟨0, 0⟩, ⟨2, 0⟩]] ∧
    insideOrOnConvex [⟨0, 0⟩, ⟨1, 1⟩, ⟨1, 2⟩] ⟨2, 0⟩ = false ∧
    makeConvex [[⟨0, 0⟩, ⟨2, 3⟩, ⟨1, 0⟩, ⟨1, 1⟩]] = some [[⟨0, 0⟩, ⟨1, 0⟩, ⟨2, 3⟩, ⟨1, 1⟩]] ∧
    isConvexPoly [⟨0, 0⟩, ⟨1, 0⟩, ⟨2, 3⟩, ⟨1, 1⟩] = false := by decide

/-- The pop loop of makeConvex only discards chain elements: its result is
a sublist-wise subset of the chain. -/
theorem convexPop_subset (cur f : Point2LL) :
    ∀ conv : List Point2LL, ∀ q ∈ convexPop cur f conv, q ∈ conv := by
  intro conv
  induction conv with
  | nil => intro q hq; simpa [convexPop] using hq
  | cons b tail ih =>
    intro q hq
    cases tail with
    | nil => simpa [convexPop] using hq
    | cons b2 rest =>
      simp only [convexPop] at hq
      split_ifs at hq with hg
      · exact List.mem_cons_of_mem b (ih q hq)
      · exact hq

/-- The pop loop never empties the chain. -/
theorem convexPop_ne_nil (cur f : Point2LL) :
    ∀ conv : List Point2LL, conv ≠ [] → convexPop cur f conv ≠ [] := by
  intro conv
  induction conv with
  | nil => intro hc; exact absurd rfl hc
  | cons b tail ih =>
    intro _
    cases tail with
    | nil => simp [convexPop]
    | cons b2 rest =>
      simp only [convexPop]
      split_ifs with hg
      · exact ih (by simp)
      · simp

/-- Every element of the chain built by the window loop comes from the
point list or from the initial chain. -/
theorem convexWindows_subset (f : Point2LL) :
    ∀ (pts conv : List Point2LL), ∀ q ∈ convexWindows f pts conv, q ∈ pts ∨ q ∈ conv := by
  intro pts
  induction pts with
  | nil => intro conv q hq; right; simpa [convexWindows] using hq
  | cons cur tail ih =>
    intro conv q hq
    cases tail with
    | nil => right; simpa [convexWindows] using hq
    | cons aft rest =>
      simp only [convexWindows] at hq
      split_ifs at hq with hg
      · rcases ih (cur :: convexPop cur f conv) q hq with h | h
        · exact Or.inl (List.mem_cons_of_mem cur h)
        · rcases List.mem_cons.1 h with h2 | h2
          · exact Or.inl (h2 ▸ List.mem_cons_self cur (aft :: rest))
          · exact Or.inr (convexPop_subset cur f conv q h2)
      · rcases ih conv q hq with h | h
        · exact Or.inl (List.mem_cons_of_mem cur h)
        · exact Or.inr h

/-- The window loop never empties the chain. -/
theorem convexWindows_ne_nil (f : Point2LL) :
    ∀ (pts conv : List Point2LL), conv ≠ [] → convexWindows f pts conv ≠ [] := by
  intro pts
  induction pts with
  | nil => intro conv hc; simpa [convexWindows] using hc
  | cons cur tail ih =>
    intro conv hc
    cases tail with
    | nil => simpa [convexWindows] using hc
    | cons aft rest =>
      simp only [convexWindows]
      split_ifs with hg
      · exact ih (cur :: convexPop cur f conv) (by simp)
      · exact ih conv hc

/-- Sorted insertion is a permutation. -/
theorem insertSorted_perm (p : Point2LL) (l : List Point2LL) :
    (insertSorted p l).Perm (p :: l) := by
  induction l with
  | nil => simp [insertSorted]
  | cons q rest ih =>
    simp only [insertSorted]
    split_ifs
    · exact List.Perm.refl _
    · exact (ih.cons q).trans (List.Perm.swap p q rest)

/-- The model of the std::sort call is a permutation of its input. -/
theorem sortPoints_perm (l : List Point2LL) : (sortPoints l).Perm l := by
  induction l with
  | nil => simp [sortPoints]
  | cons p rest ih => exact (insertSorted_perm p (sortPoints rest)).trans (ih.cons p)

/-- C8 (amended): makeConvex leaves an empty Shape empty and replaces
every non-empty Shape having at least one vertex with a Shape of exactly
one non-empty closed polygon whose vertices are all drawn from the input
Shape's vertices; the result is NOT guaranteed to be convex nor to contain
every input vertex. -/
theorem C8_makeConvex_structure (s : Shape) :
    (s = [] → makeConvex s = some []) ∧
    (s ≠ [] → shapeVertices s ≠ [] →
      ∃ conv : Polygon, makeConvex s = some [conv] ∧ conv ≠ [] ∧
        ∀ q ∈ conv, q ∈ shapeVertices s) := by
  have hheadD : ∀ (l : List Point2LL) (d : Point2LL), l ≠ [] → l.headD d ∈ l := by
    intro l d hl
    cases l with
    | nil => exact absurd rfl hl
    | cons a t => simp
  constructor
  · intro h; subst h; rfl
  · intro hs hv
    unfold makeConvex
    rw [if_neg (by simpa [List.isEmpty_iff] using hs)]
    cases hsv : shapeVertices s with
    | nil => exact absurd hsv hv
    | cons p0 pts =>
      have hperm := sortPoints_perm (p0 :: pts)
      have hs_ne : sortPoints (p0 :: pts) ≠ [] := by
        intro hcon
        have := hperm.length_eq
        rw [hcon] at this
        simp at this
      have hrev_ne : (sortPoints (p0 :: pts)).reverse ≠ [] := by
        simpa using hs_ne
      have hmemS : ∀ q ∈ sortPoints (p0 :: pts), q ∈ p0 :: pts := by
        intro q hq
        exact hperm.mem_iff.1 hq
      refine ⟨_, rfl, ?_, ?_⟩
      · simp only [ne_eq, List.reverse_eq_nil_iff]
        exact convexWindows_ne_nil _ _ _ (by simp)
      · intro q hq
        rw [List.mem_reverse] at hq
        rcases convexWindows_subset _ _ _ q hq with h | h
        · exact hmemS q (by simpa using h)
        · rcases List.mem_cons.1 h with h2 | h2
          · refine hmemS q ?_
            have hh := hheadD ((sortPoints (p0 :: pts)).reverse) p0 hrev_ne
            rw [h2]
            simpa using hh
          · rcases convexWindows_subset _ _ _ q h2 with h3 | h3
            · exact hmemS q h3
            · simp only [List.mem_singleton] at h3
              rw [h3]
              exact hmemS _ (hheadD _ p0 hs_ne)

/-- C8 witness: the amended statement applied to a single triangle. -/
theorem C8_makeConvex_structure_witness :
    ([[⟨0, 0⟩, ⟨3, 0⟩, ⟨0, 3⟩]] : Shape) ≠ [] ∧
    shapeVertices [[⟨0, 0⟩, ⟨3, 0⟩, ⟨0, 3⟩]] ≠ [] ∧
    ∃ conv : Polygon, makeConvex [[⟨0, 0⟩, ⟨3, 0⟩, ⟨0, 3⟩]] = some [conv] ∧ conv ≠ [] ∧
      ∀ q ∈ conv, q ∈ shapeVertices [[⟨0, 0⟩, ⟨3, 0⟩, ⟨0, 3⟩]] :=
  ⟨by decide, by decide,
    (C8_makeConvex_structure [[⟨0, 0⟩, ⟨3, 0⟩, ⟨0, 3⟩]]).2 (by decide) (by decide)⟩

/-! ## List helpers for the removeSmallAreas proofs -/

/-- Setting at or beyond the taken prefix leaves the prefix unchanged. -/
theorem take_set_of_le {α : Type} (v : α) :
    ∀ (l : List α) (i j : Nat), j ≤ i → (l.set i v).take j = l.take j := by
  intro l
  induction l with
  | nil => intro i j _; simp
  | cons a t ih =>
    intro i j hji
    cases i with
    | zero =>
      have : j = 0 := Nat.le_zero.1 hji
      subst this
      simp
    | succ i =>
      cases j with
      | zero => simp
      | succ j =>
        simp only [List.set_cons_succ, List.take_succ_cons]
        rw [ih i j (by omega)]

/-- Setting strictly inside the taken prefix commutes with take. -/
theorem take_set_comm {α : Type} (v : α) :
    ∀ (l : List α) (i j : Nat), i < j → (l.set i v).take j = (l.take j).set i v := by
  intro l
  induction l with
  | nil => intro i j _; simp
  | cons a t ih =>
    intro i j hij
    cases j with
    | zero => omega
    | succ j =>
      cases i with
      | zero => simp
      | succ i =>
        simp only [List.set_cons_succ, List.take_succ_cons]
        rw [ih i j (by omega)]

/-- Dropping up to a just-set position exposes the new value. -/
theorem drop_set_cons {α : Type} (v : α) :
    ∀ (l : List α) (i : Nat), i < l.length → (l.set i v).drop i = v :: l.drop (i + 1) := by
  intro l
  induction l with
  | nil => intro i h; simp at h
  | cons a t ih =>
    intro i h
    cases i with
    | zero => simp
    | succ i =>
      simp only [List.set_cons_succ, List.drop_succ_cons]
      exact ih i (by simpa using h)

/-- Dropping inside a taken prefix exposes the element at the boundary. -/
theorem drop_take_cons {α : Type} (d : α) :
    ∀ (l : List α) (i n : Nat), i < n → n ≤ l.length →
      (l.take n).drop i = l.getD i d :: (l.take n).drop (i + 1) := by
  intro l i n hin hn
  have hi : i < l.length := by omega
  rw [List.drop_take, List.drop_take, List.drop_eq_getElem_cons hi,
    List.getD_eq_getElem l d hi]
  have : n - i = (n - (i + 1)) + 1 := by omega
  rw [this, List.take_succ_cons]

/-- The element at the boundary of a one-longer take. -/
theorem take_succ_getD {α : Type} (d : α) (l : List α) (n : Nat) (h : n < l.length) :
    l.take (n + 1) = l.take n ++ [l.getD n d] := by
  rw [List.take_succ, List.getElem?_eq_getElem h, List.getD_eq_getElem l d h]
  rfl

/-! ## Specification of the removeSmallAreas loops -/

/-- Invariants of the remove_holes = true loop: the processed prefix is
frozen and free of small polygons, and the kept zone between it and
new_end ends up a permutation of the non-small pending elements. -/
theorem rsaLoopAll_spec (thr2 : Int) :
    ∀ (arr : List Polygon) (it newEnd : Nat) (arr2 : List Polygon) (ne2 : Nat),
      rsaLoopAll thr2 arr it newEnd = (arr2, ne2) →
      it ≤ newEnd → newEnd ≤ arr.length →
      it ≤ ne2 ∧ ne2 ≤ arr2.length ∧ arr2.take it = arr.take it ∧
      ((arr2.take ne2).drop it).Perm
        (((arr.take newEnd).drop it).filter (fun q => !isSmallPoly thr2 q)) ∧
      ∀ k, it ≤ k → k < ne2 → isSmallPoly thr2 (arr2.getD k []) = false := by
  intro arr it newEnd
  induction arr, it, newEnd using rsaLoopAll.induct thr2 with
  | case1 arr it newEnd h hsmall ih =>
    -- small polygon: overwritten by the element in front of new_end
    intro arr2 ne2 heq hle hlen
    rw [rsaLoopAll, dif_pos h, if_pos hsmall] at heq
    obtain ⟨p1, p2, p3, p4, p5⟩ := ih arr2 ne2 heq (by omega) (by simpa using (by omega : newEnd - 1 ≤ arr.length))
    refine ⟨p1, p2, ?_, ?_, p5⟩
    · rw [p3, take_set_of_le _ _ _ _ (by omega)]
    · refine p4.trans ?_
      by_cases hcase : it < newEnd - 1
      · have hv : ((arr.set it (arr.getD (newEnd - 1) [])).take (newEnd - 1)).drop it =
            arr.getD (newEnd - 1) [] :: (arr.take (newEnd - 1)).drop (it + 1) := by
          rw [take_set_comm _ _ _ _ hcase]
          exact drop_set_cons _ _ _ (by simp only [List.length_take]; omega)
        rw [hv]
        have hTake := take_succ_getD ([] : Polygon) arr (newEnd - 1) (by omega)
        rw [show newEnd - 1 + 1 = newEnd from by omega] at hTake
        have hRhs : (arr.take newEnd).drop it =
            arr.getD it [] :: ((arr.take (newEnd - 1)).drop (it + 1) ++ [arr.getD (newEnd - 1) []]) := by
          rw [drop_take_cons ([] : Polygon) arr it newEnd (by omega) hlen]
          rw [show (arr.take newEnd).drop (it + 1) =
              (arr.take (newEnd - 1)).drop (it + 1) ++ [arr.getD (newEnd - 1) []] from by
            rw [hTake, List.drop_append_of_le_length (by simp only [List.length_take]; omega)]]
        rw [hRhs]
        conv_rhs => rw [List.filter_cons]
        have hsm : (!isSmallPoly thr2 (arr.getD it [])) = false := by
          simpa [isSmallPoly] using hsmall
        rw [hsm]
        simp only [Bool.false_eq_true, if_false]
        exact (List.Perm.filter _ (List.perm_append_singleton _ _)).symm
      · have hit : newEnd = it + 1 := by omega
        have hLhs : ((arr.set it (arr.getD (newEnd - 1) [])).take (newEnd - 1)).drop it = [] := by
          have : newEnd - 1 = it := by omega
          rw [this, take_set_of_le _ _ _ _ (le_refl it)]
          rw [List.drop_take]
          simp
        have hRhs : (arr.take newEnd).drop it = [arr.getD it []] := by
          rw [drop_take_cons ([] : Polygon) arr it newEnd (by omega) hlen]
          rw [hit]
          rw [List.drop_take]
          simp
        rw [hLhs, hRhs, List.filter_cons]
        have hsm : (!isSmallPoly thr2 (arr.getD it [])) = false := by
          simpa [isSmallPoly] using hsmall
        rw [hsm]
        simp
  | case2 arr it newEnd h hsmall ih =>
    -- non-small polygon: the iterator advances
    intro arr2 ne2 heq hle hlen
    rw [rsaLoopAll, dif_pos h, if_neg hsmall] at heq
    obtain ⟨p1, p2, p3, p4, p5⟩ := ih arr2 ne2 heq (by omega) hlen
    have hpre : arr2.take it = arr.take it := by
      have h2 := congrArg (List.take it) p3
      rwa [List.take_take, List.take_take, inf_eq_left.2 (by omega : it ≤ it + 1)] at h2
    have hgetit : arr2.getD it [] = arr.getD it [] := by
      have h1 : (arr2.take (it + 1)).getD it [] = (arr.take (it + 1)).getD it [] := by
        rw [p3]
      rw [List.getD_eq_getElem?_getD, List.getD_eq_getElem?_getD,
        List.getElem?_take, List.getElem?_take] at h1
      simpa [List.getD_eq_getElem?_getD] using h1
    refine ⟨by omega, p2, hpre, ?_, ?_⟩
    · have hLhs : (arr2.take ne2).drop it = arr2.getD it [] :: (arr2.take ne2).drop (it + 1) :=
        drop_take_cons ([] : Polygon) arr2 it ne2 (by omega) p2
      have hRhs : (arr.take newEnd).drop it = arr.getD it [] :: (arr.take newEnd).drop (it + 1) :=
        drop_take_cons ([] : Polygon) arr it newEnd (by omega) hlen
      rw [hLhs, hRhs, List.filter_cons]
      have hsm : (!isSmallPoly thr2 (arr.getD it [])) = true := by
        simpa [isSmallPoly] using hsmall
      rw [hsm]
      simp only [if_true]
      rw [hgetit]
      exact p4.cons _
    · intro k hk1 hk2
      rcases Nat.eq_or_lt_of_le hk1 with hk | hk
      · subst hk
        rw [hgetit]
        simpa [isSmallPoly] using hsmall
      · exact p5 k (by omega) hk2
  | case3 arr it newEnd h =>
    intro arr2 ne2 heq hle hlen
    rw [rsaLoopAll, dif_neg h] at heq
    injection heq with h1 h2
    subst h1
    subst h2
    have hit : it = newEnd := by omega
    subst hit
    refine ⟨le_refl _, by omega, rfl, ?_, by omega⟩
    rw [List.drop_take]
    simp

/-- Setting strictly below a dropped prefix leaves the suffix unchanged. -/
theorem drop_set_of_lt {α : Type} (v : α) :
    ∀ (l : List α) (i n : Nat), i < n → (l.set i v).drop n = l.drop n := by
  intro l
  induction l with
  | nil => intro i n _; simp
  | cons a t ih =>
    intro i n hin
    cases i with
    | zero =>
      cases n with
      | zero => omega
      | succ n => simp
    | succ i =>
      cases n with
      | zero => omega
      | succ n =>
        simp only [List.set_cons_succ, List.drop_succ_cons]
        exact ih i n (by omega)

/-- getD away from a set position. -/
theorem getD_set_ne {α : Type} (d v : α) (l : List α) (i k : Nat) (h : i ≠ k) :
    (l.set i v).getD k d = l.getD k d := by
  rw [List.getD_eq_getElem?_getD, List.getD_eq_getElem?_getD, List.getElem?_set_ne h]

/-- getD at a set position in bounds. -/
theorem getD_set_self {α : Type} (d v : α) (l : List α) (i : Nat) (h : i < l.length) :
    (l.set i v).getD i d = v := by
  rw [List.getD_eq_getElem?_getD, List.getElem?_set_self h]
  rfl

/-- Lists agreeing from position n on agree at position n. -/
theorem getD_eq_of_drop_eq {α : Type} (d : α) (l₁ l₂ : List α) (n : Nat)
    (h : l₁.drop n = l₂.drop n) : l₁.getD n d = l₂.getD n d := by
  rw [List.getD_eq_getElem?_getD, List.getD_eq_getElem?_getD]
  have h1 : (l₁.drop n)[0]? = (l₂.drop n)[0]? := by rw [h]
  rw [List.getElem?_drop, List.getElem?_drop] at h1
  simp only [Nat.add_zero] at h1
  rw [h1]

/-- A filter splits as the two filters refined by a second predicate. -/
theorem filter_partition {α : Type} (p q : α → Bool) :
    ∀ l : List α,
      (l.filter (fun a => p a && q a) ++ l.filter (fun a => p a && !q a)).Perm
        (l.filter p) := by
  intro l
  induction l with
  | nil => simp
  | cons a t ih =>
    simp only [List.filter_cons]
    by_cases hp : p a = true
    · by_cases hq : q a = true
      · simp only [hp, hq, Bool.and_self, if_true, Bool.not_true, Bool.and_false,
          Bool.false_eq_true, if_false, List.cons_append]
        exact ih.cons a
      · have hq2 : q a = false := by
          cases hqa : q a
          · rfl
          · exact absurd hqa hq
        simp only [hp, hq2, Bool.and_false, Bool.false_eq_true, if_false, Bool.not_false,
          Bool.and_true, if_true, Bool.true_and]
        exact (List.perm_middle).trans (ih.cons a)
    · have hp2 : p a = false := by
        cases hpa : p a
        · rfl
        · exact absurd hpa hp
      simp only [hp2, Bool.false_and, Bool.false_eq_true, if_false]
      exact ih

/-- Invariants of the remove_holes = false first pass: the prefix before
the iterator is frozen and free of small solids, the recorded hole
positions are increasing and carry exactly the small holes of the kept
prefix, the kept zone is a permutation of the non-small-solid pending
elements, the zone [new_end, old new_end) collects exactly the small
solids, and everything from the original new_end on is untouched. -/
theorem rsaLoopSolids_spec (thr2 : Int) :
    ∀ (arr : List Polygon) (it newEnd : Nat) (holes : List Nat)
      (arr2 : List Polygon) (ne2 : Nat) (holes2 : List Nat),
      rsaLoopSolids thr2 arr it newEnd holes = (arr2, ne2, holes2) →
      it ≤ newEnd → newEnd ≤ arr.length →
      List.Pairwise (· < ·) holes →
      (∀ h ∈ holes, h < it) →
      ((holes.map (fun k => arr.getD k [])).Perm
        ((arr.take it).filter (fun q => isSmallHole thr2 q))) →
      (∀ k, k < it → isSmallSolid thr2 (arr.getD k []) = false) →
      arr2.length = arr.length ∧
      it ≤ ne2 ∧ ne2 ≤ newEnd ∧
      arr2.take it = arr.take it ∧
      List.Pairwise (· < ·) holes2 ∧
      (∀ h ∈ holes2, h < ne2) ∧
      ((holes2.map (fun k => arr2.getD k [])).Perm
        ((arr2.take ne2).filter (fun q => isSmallHole thr2 q))) ∧
      (∀ k, k < ne2 → isSmallSolid thr2 (arr2.getD k []) = false) ∧
      ((arr2.take ne2).drop it).Perm
        (((arr.take newEnd).drop it).filter (fun q => !isSmallSolid thr2 q)) ∧
      ((arr2.take newEnd).drop ne2).Perm
        (((arr.take newEnd).drop it).filter (fun q => isSmallSolid thr2 q)) ∧
      arr2.drop newEnd = arr.drop newEnd := by
  intro arr it newEnd holes
  induction arr, it, newEnd, holes using rsaLoopSolids.induct thr2 with
  | case1 arr it newEnd holes h hsm hsolid hswap ih =>
    -- a small solid strictly before new_end - 1: swap with *(new_end - 1)
    intro arr2 ne2 holes2 heq hle hlen hpw hlt hperm hpre
    rw [rsaLoopSolids, dif_pos h, if_pos hsm, if_pos hsolid, if_pos hswap] at heq
    set x : Polygon := arr.getD it [] with hx
    set v : Polygon := arr.getD (newEnd - 1) [] with hv
    set arrS : List Polygon := (arr.set it v).set (newEnd - 1) x with harrS
    have hxSS : isSmallSolid thr2 x = true := by
      simp [isSmallSolid, hsm, hsolid]
    have hlenS : arrS.length = arr.length := by simp [harrS]
    have hpreS : arrS.take it = arr.take it := by
      rw [harrS, take_set_of_le _ _ _ _ (by omega), take_set_of_le _ _ _ _ (le_refl it)]
    have hgetS : ∀ k, k < it → arrS.getD k [] = arr.getD k [] := by
      intro k hk
      rw [harrS, getD_set_ne _ _ _ _ _ (by omega), getD_set_ne _ _ _ _ _ (by omega)]
    obtain ⟨p1, p2, p3, p4, p5, p6, p7, p8, p9, p10, p11⟩ :=
      ih arr2 ne2 holes2 heq (by omega) (by rw [hlenS]; omega) hpw hlt
        (by
          refine List.Perm.trans ?_ (hperm.trans ?_)
          · exact List.Perm.of_eq (List.map_congr_left (fun k hk => hgetS k (hlt k hk)))
          · rw [hpreS])
        (by intro k hk; rw [hgetS k hk]; exact hpre k hk)
    have hprefix : arr2.take it = arr.take it := by rw [p4, hpreS]
    -- the kept-zone decomposition used by both permutation conclusions
    have hMid : (arrS.take (newEnd - 1)).drop it =
        v :: (arr.take (newEnd - 1)).drop (it + 1) := by
      rw [harrS, take_set_of_le _ _ _ _ (le_refl (newEnd - 1)), take_set_comm _ _ _ _ hswap]
      exact drop_set_cons _ _ _ (by simp only [List.length_take]; omega)
    have hTake := take_succ_getD ([] : Polygon) arr (newEnd - 1) (by omega)
    rw [show newEnd - 1 + 1 = newEnd from by omega] at hTake
    have hPend : (arr.take newEnd).drop it =
        x :: ((arr.take (newEnd - 1)).drop (it + 1) ++ [v]) := by
      rw [drop_take_cons ([] : Polygon) arr it newEnd (by omega) hlen]
      rw [show (arr.take newEnd).drop (it + 1) =
          (arr.take (newEnd - 1)).drop (it + 1) ++ [v] from by
        rw [hTake, List.drop_append_of_le_length (by simp only [List.length_take]; omega)]]
    have hdropS : arr2.drop newEnd = arr.drop newEnd := by
      have h1 := congrArg (List.drop 1) p11
      rw [List.drop_drop, List.drop_drop, show newEnd - 1 + 1 = newEnd from by omega] at h1
      rw [h1, harrS, drop_set_of_lt _ _ _ _ (by omega), drop_set_of_lt _ _ _ _ (by omega)]
    refine ⟨by rw [p1, hlenS], p2, by omega, hprefix, p5, p6, p7, p8, ?_, ?_, hdropS⟩
    · refine p9.trans ?_
      rw [hMid, hPend]
      conv_rhs => rw [List.filter_cons]
      rw [if_neg (by rw [hxSS]; exact Bool.false_ne_true)]
      exact (List.Perm.filter _ (List.perm_append_singleton _ _)).symm
    · -- the removed zone gains x at position newEnd - 1
      have hgetNE : arr2.getD (newEnd - 1) [] = x := by
        rw [getD_eq_of_drop_eq [] arr2 arrS (newEnd - 1) p11, harrS]
        exact getD_set_self _ _ _ _ (by simp only [List.length_set]; omega)
      have hSeg : (arr2.take newEnd).drop ne2 =
          ((arr2.take (newEnd - 1)).drop ne2) ++ [x] := by
        have hT2 := take_succ_getD ([] : Polygon) arr2 (newEnd - 1) (by rw [p1, hlenS]; omega)
        rw [show newEnd - 1 + 1 = newEnd from by omega] at hT2
        rw [hT2, hgetNE, List.drop_append_of_le_length (by simp only [List.length_take]; omega)]
      rw [hSeg, hPend, List.filter_cons, if_pos hxSS]
      refine (p10.append_right [x]).trans ?_
      refine (List.perm_append_singleton x _).trans ?_
      refine List.Perm.cons x ?_
      rw [hMid]
      exact List.Perm.filter _ (List.perm_append_singleton v _).symm
  | case2 arr it newEnd holes h hsm hsolid hnoswap =>
    -- the break: the last pending element self-removes
    intro arr2 ne2 holes2 heq hle hlen hpw hlt hperm hpre
    rw [rsaLoopSolids, dif_pos h, if_pos hsm, if_pos hsolid, if_neg hnoswap] at heq
    injection heq with h1 hrest
    injection hrest with h2 h3
    subst h1
    subst h2
    subst h3
    have hit : it = newEnd - 1 := by omega
    have hxSS : isSmallSolid thr2 (arr.getD it []) = true := by
      simp only [isSmallSolid, Bool.and_eq_true, decide_eq_true_eq]
      exact ⟨hsm, hsolid⟩
    have hPend : (arr.take newEnd).drop it = [arr.getD it []] := by
      rw [drop_take_cons ([] : Polygon) arr it newEnd (by omega) hlen]
      rw [show it + 1 = newEnd from by omega, List.drop_take]
      simp
    refine ⟨rfl, by omega, by omega, rfl, hpw, ?_, ?_, ?_, ?_, ?_, rfl⟩
    · intro h2 hh
      have := hlt h2 hh
      omega
    · rw [← hit]
      exact hperm
    · intro k hk
      rw [← hit] at hk
      exact hpre k hk
    · rw [← hit, List.drop_take]
      simp only [Nat.sub_self, List.take_zero]
      rw [hPend, List.filter_cons, if_neg (by rw [hxSS]; exact Bool.false_ne_true)]
      simp
    · rw [← hit, hPend, List.filter_cons, if_pos hxSS]
      simp only [List.filter_nil]
      exact List.Perm.refl _
  | case3 arr it newEnd holes h hsm hsolid ih =>
    -- a small hole: record its position, advance
    intro arr2 ne2 holes2 heq hle hlen hpw hlt hperm hpre
    rw [rsaLoopSolids, dif_pos h, if_pos hsm, if_neg hsolid] at heq
    set x : Polygon := arr.getD it [] with hx
    have hxSH : isSmallHole thr2 x = true := by
      simp only [isSmallHole, Bool.and_eq_true, decide_eq_true_eq]
      exact ⟨hsm, by omega⟩
    have hxSS : isSmallSolid thr2 x = false := by
      simp only [isSmallSolid, Bool.and_eq_false_iff]
      right
      simp only [decide_eq_false_iff_not]
      omega
    have hT := take_succ_getD ([] : Polygon) arr it (by omega)
    obtain ⟨p1, p2, p3, p4, p5, p6, p7, p8, p9, p10, p11⟩ :=
      ih arr2 ne2 holes2 heq (by omega) hlen
        (by
          rw [List.pairwise_append]
          exact ⟨hpw, List.pairwise_singleton _ _, fun a ha b hb => by
            simp only [List.mem_singleton] at hb
            subst hb
            exact hlt a ha⟩)
        (by
          intro h2 hh
          rcases List.mem_append.1 hh with h3 | h3
          · have := hlt h2 h3; omega
          · simp only [List.mem_singleton] at h3; omega)
        (by
          rw [List.map_append, hT, List.filter_append]
          simp only [List.map_cons, List.map_nil, List.filter_cons, List.filter_nil, hxSH,
            if_true]
          exact hperm.append_right [x])
        (by
          intro k hk
          rcases Nat.lt_or_ge k it with h3 | h3
          · exact hpre k h3
          · have hk2 : k = it := by omega
            subst hk2
            exact hxSS)
    have hprefix : arr2.take it = arr.take it := by
      have h2 := congrArg (List.take it) p4
      rwa [List.take_take, List.take_take, inf_eq_left.2 (by omega : it ≤ it + 1)] at h2
    have hgetit : arr2.getD it [] = arr.getD it [] := by
      have h1 : (arr2.take (it + 1)).getD it [] = (arr.take (it + 1)).getD it [] := by
        rw [p4]
      rw [List.getD_eq_getElem?_getD, List.getD_eq_getElem?_getD,
        List.getElem?_take, List.getElem?_take] at h1
      simpa [List.getD_eq_getElem?_getD] using h1
    refine ⟨p1, by omega, p3, hprefix, p5, p6, p7, p8, ?_, ?_, p11⟩
    · have hLhs : (arr2.take ne2).drop it = arr2.getD it [] :: (arr2.take ne2).drop (it + 1) :=
        drop_take_cons ([] : Polygon) arr2 it ne2 (by omega) (by rw [p1]; omega)
      have hRhs : (arr.take newEnd).drop it = x :: (arr.take newEnd).drop (it + 1) :=
        drop_take_cons ([] : Polygon) arr it newEnd (by omega) hlen
      rw [hLhs, hRhs, List.filter_cons,
        if_pos (show (!isSmallSolid thr2 x) = true from by rw [hxSS]; rfl)]
      rw [hgetit]
      exact p9.cons _
    · refine p10.trans ?_
      have hRhs : (arr.take newEnd).drop it = x :: (arr.take newEnd).drop (it + 1) :=
        drop_take_cons ([] : Polygon) arr it newEnd (by omega) hlen
      rw [hRhs, List.filter_cons, if_neg (by rw [hxSS]; exact Bool.false_ne_true)]
  | case4 arr it newEnd holes h hsm ih =>
    -- not small: advance
    intro arr2 ne2 holes2 heq hle hlen hpw hlt hperm hpre
    rw [rsaLoopSolids, dif_pos h, if_neg hsm] at heq
    set x : Polygon := arr.getD it [] with hx
    have hxSH : isSmallHole thr2 x = false := by
      simp only [isSmallHole, Bool.and_eq_false_iff]
      left
      simp only [decide_eq_false_iff_not]
      exact hsm
    have hxSS : isSmallSolid thr2 x = false := by
      simp only [isSmallSolid, Bool.and_eq_false_iff]
      left
      simp only [decide_eq_false_iff_not]
      exact hsm
    have hT := take_succ_getD ([] : Polygon) arr it (by omega)
    obtain ⟨p1, p2, p3, p4, p5, p6, p7, p8, p9, p10, p11⟩ :=
      ih arr2 ne2 holes2 heq (by omega) hlen hpw
        (fun h2 hh => by have := hlt h2 hh; omega)
        (by
          rw [hT, List.filter_append]
          simp only [List.filter_cons, List.filter_nil, hxSH, Bool.false_eq_true, if_false,
            List.append_nil]
          exact hperm)
        (by
          intro k hk
          rcases Nat.lt_or_ge k it with h3 | h3
          · exact hpre k h3
          · have hk2 : k = it := by omega
            subst hk2
            exact hxSS)
    have hprefix : arr2.take it = arr.take it := by
      have h2 := congrArg (List.take it) p4
      rwa [List.take_take, List.take_take, inf_eq_left.2 (by omega : it ≤ it + 1)] at h2
    have hgetit : arr2.getD it [] = arr.getD it [] := by
      have h1 : (arr2.take (it + 1)).getD it [] = (arr.take (it + 1)).getD it [] := by
        rw [p4]
      rw [List.getD_eq_getElem?_getD, List.getD_eq_getElem?_getD,
        List.getElem?_take, List.getElem?_take] at h1
      simpa [List.getD_eq_getElem?_getD] using h1
    refine ⟨p1, by omega, p3, hprefix, p5, p6, p7, p8, ?_, ?_, p11⟩
    · have hLhs : (arr2.take ne2).drop it = arr2.getD it [] :: (arr2.take ne2).drop (it + 1) :=
        drop_take_cons ([] : Polygon) arr2 it ne2 (by omega) (by rw [p1]; omega)
      have hRhs : (arr.take newEnd).drop it = x :: (arr.take newEnd).drop (it + 1) :=
        drop_take_cons ([] : Polygon) arr it newEnd (by omega) hlen
      rw [hLhs, hRhs, List.filter_cons,
        if_pos (show (!isSmallSolid thr2 x) = true from by rw [hxSS]; rfl)]
      rw [hgetit]
      exact p9.cons _
    · refine p10.trans ?_
      have hRhs : (arr.take newEnd).drop it = x :: (arr.take newEnd).drop (it + 1) :=
        drop_take_cons ([] : Polygon) arr it newEnd (by omega) hlen
      rw [hRhs, List.filter_cons, if_neg (by rw [hxSS]; exact Bool.false_ne_true)]
  | case5 arr it newEnd holes h =>
    intro arr2 ne2 holes2 heq hle hlen hpw hlt hperm hpre
    rw [rsaLoopSolids, dif_neg h] at heq
    injection heq with h1 hrest
    injection hrest with h2 h3
    subst h1
    subst h2
    subst h3
    have hit : it = newEnd := by omega
    subst hit
    refine ⟨rfl, le_refl _, le_refl _, rfl, hpw, hlt, hperm, hpre, ?_, ?_, rfl⟩
    · rw [List.drop_take]
      simp
    · rw [List.drop_take]
      simp

/-- The hit test only depends on the removed zone and the hole position:
it is unchanged by a set strictly below the removed zone and away from the
hole position. -/
theorem rsaHoleHit_set (arr : List Polygon) (ros total hIdx i : Nat) (v : Polygon)
    (hi : i < ros) (hne : i ≠ hIdx) :
    rsaHoleHit (arr.set i v) ros total hIdx = rsaHoleHit arr ros total hIdx := by
  unfold rsaHoleHit
  rw [getD_set_ne _ _ _ _ _ hne]
  refine congrArg _ (funext fun k => ?_)
  rw [getD_set_ne _ _ _ _ _ (by omega)]

/-- Invariants of the small-hole removal pass: processed in decreasing
position order, each hit hole loses exactly one copy of its value from the
kept prefix, and the removed zone stays untouched. -/
theorem rsaLoopHoles_spec :
    ∀ (rem : List Nat) (arr : List Polygon) (newEnd ros total : Nat)
      (arr3 : List Polygon) (ne3 : Nat),
      rsaLoopHoles arr newEnd ros total rem = (arr3, ne3) →
      total = arr.length → newEnd ≤ ros → ros ≤ total →
      List.Pairwise (· > ·) rem →
      (∀ h ∈ rem, h < newEnd) →
      ne3 ≤ newEnd ∧
      ((arr3.take ne3) ++
        ((rem.filter (fun h => rsaHoleHit arr ros total h)).map
          (fun h => arr.getD h []))).Perm (arr.take newEnd) ∧
      arr3.drop ros = arr.drop ros ∧ arr3.length = arr.length := by
  intro rem
  induction rem with
  | nil =>
    intro arr newEnd ros total arr3 ne3 heq _ _ _ _ _
    rw [rsaLoopHoles] at heq
    injection heq with h1 h2
    subst h1
    subst h2
    simp
  | cons hIdx rest ih =>
    intro arr newEnd ros total arr3 ne3 heq htot hnr hrt hpw hbound
    have hhd : hIdx < newEnd := hbound hIdx (by simp)
    have hrest_lt : ∀ h ∈ rest, h < hIdx := by
      intro h hh
      exact (List.pairwise_cons.1 hpw).1 h hh
    rw [rsaLoopHoles] at heq
    by_cases hhit : rsaHoleHit arr ros total hIdx = true
    · rw [if_pos hhit] at heq
      set v : Polygon := arr.getD (newEnd - 1) [] with hv
      set x : Polygon := arr.getD hIdx [] with hx
      set arrN : List Polygon := arr.set hIdx v with harrN
      obtain ⟨c1, c2, c3, c4⟩ := ih arrN (newEnd - 1) ros total arr3 ne3 heq
        (by rw [htot, harrN, List.length_set]) (by omega) hrt
        ((List.pairwise_cons.1 hpw).2)
        (by intro h hh; have h1 := hrest_lt h hh; omega)
      have hvalsEq : (rest.filter (fun h => rsaHoleHit arrN ros total h)).map
          (fun h => arrN.getD h []) =
          (rest.filter (fun h => rsaHoleHit arr ros total h)).map
          (fun h => arr.getD h []) := by
        rw [List.filter_congr (fun h hh => by
          rw [harrN, rsaHoleHit_set arr ros total h hIdx v (by omega)
            (by have := hrest_lt h hh; omega)])]
        refine List.map_congr_left (fun h hh => ?_)
        have hh2 : h ∈ rest := List.mem_of_mem_filter hh
        rw [harrN, getD_set_ne _ _ _ _ _ (by have := hrest_lt h hh2; omega)]
      have hKey : (arrN.take (newEnd - 1)) ++ [x] |>.Perm (arr.take newEnd) := by
        by_cases hcase : hIdx < newEnd - 1
        · have hY : arrN.take (newEnd - 1) = (arr.take (newEnd - 1)).set hIdx v := by
            rw [harrN, take_set_comm _ _ _ _ hcase]
          have hYlen : hIdx < (arr.take (newEnd - 1)).length := by
            simp only [List.length_take]
            omega
          have hgetY : (arr.take (newEnd - 1)).getD hIdx [] = x := by
            rw [List.getD_eq_getElem?_getD, List.getElem?_take, if_pos hcase,
              ← List.getD_eq_getElem?_getD]
          have hsplit : arr.take (newEnd - 1) =
              (arr.take (newEnd - 1)).take hIdx ++
                x :: (arr.take (newEnd - 1)).drop (hIdx + 1) := by
            conv_lhs => rw [← List.take_append_drop hIdx (arr.take (newEnd - 1))]
            rw [List.drop_eq_getElem_cons (by omega : hIdx < (arr.take (newEnd - 1)).length)]
            rw [← List.getD_eq_getElem _ ([] : Polygon), hgetY]
          have hsetsplit : (arr.take (newEnd - 1)).set hIdx v =
              (arr.take (newEnd - 1)).take hIdx ++
                v :: (arr.take (newEnd - 1)).drop (hIdx + 1) := by
            rw [List.set_eq_take_append_cons_drop, if_pos hYlen]
          have hTake := take_succ_getD ([] : Polygon) arr (newEnd - 1) (by omega)
          rw [show newEnd - 1 + 1 = newEnd from by omega] at hTake
          rw [hY, hTake, hsetsplit]
          conv_rhs => rw [hsplit]
          refine (List.perm_append_singleton x _).trans ?_
          refine List.Perm.trans (List.Perm.cons x List.perm_middle) ?_
          refine List.Perm.trans (List.Perm.swap v x _) ?_
          refine List.Perm.trans (List.Perm.cons v List.perm_middle.symm) ?_
          exact (List.perm_append_singleton v _).symm
        · have hIdxEq : hIdx = newEnd - 1 := by omega
          have hpre2 : arrN.take (newEnd - 1) = arr.take (newEnd - 1) := by
            rw [harrN, take_set_of_le _ _ _ _ (by omega)]
          have hTake := take_succ_getD ([] : Polygon) arr (newEnd - 1) (by omega)
          rw [show newEnd - 1 + 1 = newEnd from by omega] at hTake
          rw [hpre2, hTake, hx, hIdxEq]
      refine ⟨by omega, ?_, by rw [c3, harrN, drop_set_of_lt _ _ _ _ (by omega)],
        by rw [c4, harrN, List.length_set]⟩
      rw [List.filter_cons, if_pos hhit]
      simp only [List.map_cons]
      rw [← hx]
      refine List.Perm.trans (List.Perm.append_left _ (List.perm_append_singleton x _).symm) ?_
      rw [← List.append_assoc]
      rw [hvalsEq] at c2
      exact (c2.append_right [x]).trans hKey
    · rw [if_neg hhit] at heq
      obtain ⟨c1, c2, c3, c4⟩ := ih arr newEnd ros total arr3 ne3 heq htot hnr hrt
        ((List.pairwise_cons.1 hpw).2)
        (fun h hh => hbound h (by simp [hh]))
      refine ⟨c1, ?_, c3, c4⟩
      rw [List.filter_cons, if_neg hhit]
      exact c2

/-- Permutations preserve List.any. -/
theorem perm_any_eq {α : Type} (p : α → Bool) {l₁ l₂ : List α} (h : l₁.Perm l₂) :
    l₁.any p = l₂.any p := by
  rw [Bool.eq_iff_iff, List.any_eq_true, List.any_eq_true]
  constructor
  · rintro ⟨x, hx, hp⟩
    exact ⟨x, h.mem_iff.1 hx, hp⟩
  · rintro ⟨x, hx, hp⟩
    exact ⟨x, h.mem_iff.2 hx, hp⟩

/-- An index-based any over a suffix equals the list-level any. -/
theorem range_any_getD {α : Type} (d : α) (P : α → Bool) (l : List α) (ros : Nat) :
    (List.range (l.length - ros)).any (fun k => P (l.getD (ros + k) d)) =
      (l.drop ros).any P := by
  rw [Bool.eq_iff_iff, List.any_eq_true, List.any_eq_true]
  constructor
  · rintro ⟨k, hk, hp⟩
    rw [List.mem_range] at hk
    refine ⟨l.getD (ros + k) d, ?_, hp⟩
    rw [List.mem_iff_getElem]
    refine ⟨k, by simp only [List.length_drop]; omega, ?_⟩
    rw [List.getElem_drop, ← List.getD_eq_getElem l d (by omega)]
  · rintro ⟨x, hx, hp⟩
    rw [List.mem_iff_getElem] at hx
    obtain ⟨j, hj, hx⟩ := hx
    have hj2 : j < l.length - ros := by simpa using hj
    refine ⟨j, List.mem_range.2 hj2, ?_⟩
    rw [List.getD_eq_getElem l d (by omega), ← List.getElem_drop l (h := hj), hx]
    exact hp

/-- A small hole is not a small solid. -/
theorem isSmallHole_not_solid (thr2 : Int) (q : Polygon) (h : isSmallHole thr2 q = true) :
    isSmallSolid thr2 q = false := by
  simp only [isSmallHole, Bool.and_eq_true, decide_eq_true_eq] at h
  simp only [isSmallSolid, Bool.and_eq_false_iff]
  right
  simp only [decide_eq_false_iff_not]
  omega

/-- C4: removeSmallAreas(t, true) keeps exactly the polygons of absolute
area at least t; removeSmallAreas(t, false) keeps exactly the polygons
that are not small solids, except that a small hole whose first point lies
inside one of the removed small solids is removed too.  (Thresholds are in
doubled square-int units; Polygon::inside and ClipperLib::Area are
spec-modelled.) -/
theorem C4_removeSmallAreas_characterization (s : Shape) (thr2 : Int) :
    (removeSmallAreas s thr2 true).Perm
      (s.filter (fun q => !isSmallPoly thr2 q)) ∧
    (removeSmallAreas s thr2 false).Perm
      (s.filter (fun q =>
        !isSmallSolid thr2 q &&
        !(isSmallHole thr2 q &&
          s.any (fun o => isSmallSolid thr2 o && polyInsideBool o (q.headD ⟨0, 0⟩))))) := by
  constructor
  · rcases hA : rsaLoopAll thr2 s 0 s.length with ⟨arr2, ne2⟩
    obtain ⟨p1, p2, p3, p4, p5⟩ := rsaLoopAll_spec thr2 s 0 s.length arr2 ne2 hA
      (Nat.zero_le _) (le_refl _)
    have hre : removeSmallAreas s thr2 true = arr2.take ne2 := by
      unfold removeSmallAreas
      rw [if_pos rfl, hA]
    rw [hre]
    simpa [List.take_length] using p4
  · rcases hB : rsaLoopSolids thr2 s 0 s.length [] with ⟨arrB, ros, holesB⟩
    obtain ⟨b1, b2, b3, b4, b5, b6, b7, b8, b9, b10, b11⟩ :=
      rsaLoopSolids_spec thr2 s 0 s.length [] arrB ros holesB hB (Nat.zero_le _)
        (le_refl _) List.Pairwise.nil (by simp) (by simp)
        (by intro k hk; exact absurd hk (by omega))
    have hkept : (arrB.take ros).Perm (s.filter (fun q => !isSmallSolid thr2 q)) := by
      simpa [List.take_length] using b9
    have hrem : (arrB.drop ros).Perm (s.filter (fun q => isSmallSolid thr2 q)) := by
      have h2 : arrB.take s.length = arrB := by
        rw [← b1]
        exact List.take_length arrB
      rw [h2] at b10
      simpa [List.take_length] using b10
    rcases hC : rsaLoopHoles arrB ros ros s.length holesB.reverse with ⟨arrC, neC⟩
    obtain ⟨c1, c2, c3, c4⟩ := rsaLoopHoles_spec holesB.reverse arrB ros ros s.length
      arrC neC hC b1.symm (le_refl _) b3
      (by rw [List.pairwise_reverse]; exact b5)
      (by intro h hh; rw [List.mem_reverse] at hh; exact b6 h hh)
    have hre : removeSmallAreas s thr2 false = arrC.take neC := by
      unfold removeSmallAreas
      rw [if_neg Bool.false_ne_true]
      simp only [hB, hC]
    rw [hre]
    -- the value-level hit predicate
    set F : Polygon → Bool :=
      fun q => (arrB.drop ros).any (fun o => polyInsideBool o (q.headD ⟨0, 0⟩)) with hF
    set hitB : Polygon → Bool :=
      fun q => s.any (fun o => isSmallSolid thr2 o && polyInsideBool o (q.headD ⟨0, 0⟩))
      with hhitB
    have hFq : ∀ q, F q = hitB q := by
      intro q
      rw [hF, hhitB]
      simp only
      rw [perm_any_eq _ hrem, List.any_filter]
    have hhit_eq : ∀ h, rsaHoleHit arrB ros s.length h = F (arrB.getD h []) := by
      intro h
      unfold rsaHoleHit
      rw [hF]
      simp only
      rw [← range_any_getD ([] : Polygon)
        (fun o => polyInsideBool o ((arrB.getD h []).headD ⟨0, 0⟩)) arrB ros]
      rw [← b1]
    have hvals : ((holesB.reverse.filter
        (fun h => rsaHoleHit arrB ros s.length h)).map (fun h => arrB.getD h [])).Perm
        (s.filter (fun q => isSmallHole thr2 q && hitB q)) := by
      rw [List.filter_congr (fun h _ => hhit_eq h)]
      have hmf : (holesB.reverse.filter (fun h => F (arrB.getD h []))).map
          (fun h => arrB.getD h []) =
          (holesB.reverse.map (fun h => arrB.getD h [])).filter F := by
        rw [List.map_filter]
        rfl
      rw [hmf]
      have hmaps : ((holesB.reverse.map (fun h => arrB.getD h []))).Perm
          ((arrB.take ros).filter (fun q => isSmallHole thr2 q)) :=
        ((List.reverse_perm holesB).map _).trans b7
      refine ((hmaps.filter F).trans ?_)
      refine ((hkept.filter _).filter F).trans ?_
      rw [List.filter_filter, List.filter_filter]
      refine List.Perm.of_eq (List.filter_congr (fun q _ => ?_))
      by_cases hsh : isSmallHole thr2 q = true
      · have hss := isSmallHole_not_solid thr2 q hsh
        simp [hsh, hss, hFq q]
      · have hsh2 : isSmallHole thr2 q = false := by
          cases h2 : isSmallHole thr2 q
          · rfl
          · exact absurd h2 hsh
        simp [hsh2]
    -- assemble through multisets
    rw [← Multiset.coe_eq_coe]
    have hc2 : (↑(arrC.take neC) : Multiset Polygon) +
        ↑((holesB.reverse.filter (fun h => rsaHoleHit arrB ros s.length h)).map
          (fun h => arrB.getD h [])) = ↑(arrB.take ros) := by
      rw [Multiset.coe_add, Multiset.coe_eq_coe]
      exact c2
    have hpart := filter_partition (fun q => !isSmallSolid thr2 q)
      (fun q => !(isSmallHole thr2 q && hitB q)) s
    have hpart2 : (↑(s.filter (fun q =>
        !isSmallSolid thr2 q && !(isSmallHole thr2 q && hitB q))) : Multiset Polygon) +
        ↑(s.filter (fun q => isSmallHole thr2 q && hitB q)) =
        ↑(s.filter (fun q => !isSmallSolid thr2 q)) := by
      rw [Multiset.coe_add, Multiset.coe_eq_coe]
      refine List.Perm.trans ?_ hpart
      refine List.Perm.append_left _ (List.Perm.of_eq (List.filter_congr (fun q _ => ?_)))
      by_cases hsh : isSmallHole thr2 q = true
      · have hss := isSmallHole_not_solid thr2 q hsh
        simp [hsh, hss]
      · have hsh2 : isSmallHole thr2 q = false := by
          cases h2 : isSmallHole thr2 q
          · rfl
          · exact absurd h2 hsh
        simp [hsh2]
    have hkeptM : (↑(arrB.take ros) : Multiset Polygon) =
        ↑(s.filter (fun q => !isSmallSolid thr2 q)) := by
      rw [Multiset.coe_eq_coe]
      exact hkept
    have hvalsM : (↑((holesB.reverse.filter (fun h => rsaHoleHit arrB ros s.length h)).map
        (fun h => arrB.getD h [])) : Multiset Polygon) =
        ↑(s.filter (fun q => isSmallHole thr2 q && hitB q)) := by
      rw [Multiset.coe_eq_coe]
      exact hvals
    have hfinal : (↑(arrC.take neC) : Multiset Polygon) +
        ↑(s.filter (fun q => isSmallHole thr2 q && hitB q)) =
        ↑(s.filter (fun q =>
          !isSmallSolid thr2 q && !(isSmallHole thr2 q && hitB q))) +
        ↑(s.filter (fun q => isSmallHole thr2 q && hitB q)) := by
      rw [← hvalsM, hc2, hkeptM, ← hpart2, hvalsM]
    exact add_right_cancel hfinal

/-! ## Characterization of findInside (claims C1 and C2) -/

/-- optLt implies optLe. -/
theorem optLt_optLe {a b : Option Int} (h : optLt a b = true) : optLe a b = true := by
  cases a <;> cases b <;> simp_all [optLt, optLe] <;> omega

/-- Totality: a failed strict comparison flips to the non-strict one. -/
theorem not_optLt {a b : Option Int} (h : optLt a b = false) : optLe b a = true := by
  cases a <;> cases b <;> simp_all [optLt, optLe] <;> omega

/-- Strict-nonstrict transitivity of the sentinel order. -/
theorem optLt_le_trans {a b c : Option Int} (h1 : optLt a b = true)
    (h2 : optLe b c = true) : optLt a c = true := by
  cases a <;> cases b <;> cases c <;> simp_all [optLt, optLe] <;> omega

/-- Reflexivity of the non-strict sentinel order. -/
theorem optLe_refl (a : Option Int) : optLe a a = true := by
  cases a <;> simp [optLe]

/-- The edge loop of findInside computes the crossing count and the
minimum crossing abscissa, with the early border return exactly when
border_result is set and some edge contains the point. -/
theorem scanEdges_spec (p : Point2LL) (br : Bool) :
    ∀ (es : List (Point2LL × Point2LL)) (cr : Nat) (mx : Option Int),
      scanEdges p br es cr mx =
        (if br = true ∧ es.any (fun e => pointLiesOnTheRightOfLine p e.1 e.2 = 0) then none
         else some (cr + es.countP (fun e => pointLiesOnTheRightOfLine p e.1 e.2 = 1),
           es.foldl (fun m e => if pointLiesOnTheRightOfLine p e.1 e.2 = 1
             then updateMin m (crossingX p e.1 e.2) else m) mx)) := by
  intro es
  induction es with
  | nil =>
    intro cr mx
    simp [scanEdges]
  | cons e rest ih =>
    intro cr mx
    obtain ⟨p0, p1⟩ := e
    by_cases h1 : pointLiesOnTheRightOfLine p p0 p1 = 1
    · rw [scanEdges, if_pos h1, ih]
      have hany : (((p0, p1) :: rest).any
          (fun e => decide (pointLiesOnTheRightOfLine p e.1 e.2 = 0))) =
          (rest.any (fun e => decide (pointLiesOnTheRightOfLine p e.1 e.2 = 0))) := by
        simp only [List.any_cons]
        have hd : decide (pointLiesOnTheRightOfLine p p0 p1 = 0) = false := by
          simp only [decide_eq_false_iff_not]
          omega
        rw [hd, Bool.false_or]
      have hcnt : ((p0, p1) :: rest).countP
          (fun e => decide (pointLiesOnTheRightOfLine p e.1 e.2 = 1)) =
          rest.countP (fun e => decide (pointLiesOnTheRightOfLine p e.1 e.2 = 1)) + 1 := by
        rw [List.countP_cons]
        simp [h1]
      have hfold : ((p0, p1) :: rest).foldl (fun m e =>
          if pointLiesOnTheRightOfLine p e.1 e.2 = 1
          then updateMin m (crossingX p e.1 e.2) else m) mx =
          rest.foldl (fun m e => if pointLiesOnTheRightOfLine p e.1 e.2 = 1
            then updateMin m (crossingX p e.1 e.2) else m)
            (updateMin mx (crossingX p p0 p1)) := by
        simp only [List.foldl_cons, if_pos h1]
      rw [hany, hcnt, hfold]
      split_ifs with h2
      · rfl
      · have harith : cr + (List.countP
            (fun e => decide (pointLiesOnTheRightOfLine p e.1 e.2 = 1)) rest + 1) =
            cr + 1 + List.countP
              (fun e => decide (pointLiesOnTheRightOfLine p e.1 e.2 = 1)) rest := by
          omega
        rw [harith]
    · by_cases h0 : br = true ∧ pointLiesOnTheRightOfLine p p0 p1 = 0
      · have hcond : br = true ∧ ((((p0, p1) :: rest).any
            (fun e => decide (pointLiesOnTheRightOfLine p e.1 e.2 = 0))) = true) := by
          refine ⟨h0.1, ?_⟩
          simp only [List.any_cons, Bool.or_eq_true]
          left
          simp [h0.2]
        rw [scanEdges, if_neg h1, if_pos h0, if_pos hcond]
      · rw [scanEdges, if_neg h1, if_neg h0, ih]
        have hsame : (br = true ∧ ((p0, p1) :: rest).any
            (fun e => decide (pointLiesOnTheRightOfLine p e.1 e.2 = 0)) = true) ↔
            (br = true ∧ rest.any
              (fun e => decide (pointLiesOnTheRightOfLine p e.1 e.2 = 0)) = true) := by
          constructor
          · rintro ⟨hb, hany⟩
            refine ⟨hb, ?_⟩
            simp only [List.any_cons, Bool.or_eq_true] at hany
            rcases hany with h2 | h2
            · exfalso
              exact h0 ⟨hb, by simpa using h2⟩
            · exact h2
          · rintro ⟨hb, hany⟩
            exact ⟨hb, by simp only [List.any_cons, Bool.or_eq_true]; right; exact hany⟩
        have hcnt : ((p0, p1) :: rest).countP
            (fun e => decide (pointLiesOnTheRightOfLine p e.1 e.2 = 1)) =
            rest.countP (fun e => decide (pointLiesOnTheRightOfLine p e.1 e.2 = 1)) := by
          rw [List.countP_cons]
          simp [h1]
        have hfold : ((p0, p1) :: rest).foldl (fun m e =>
            if pointLiesOnTheRightOfLine p e.1 e.2 = 1
            then updateMin m (crossingX p e.1 e.2) else m) mx =
            rest.foldl (fun m e => if pointLiesOnTheRightOfLine p e.1 e.2 = 1
              then updateMin m (crossingX p e.1 e.2) else m) mx := by
          simp only [List.foldl_cons, if_neg h1]
        rw [← hcnt, ← hfold]
        simp only [hsame]

/-- The polygon loop of findInside: an early `Sum.inr` at the first
border polygon when border_result is set, otherwise the per-polygon
(crossing count, min_x) statistics in order. -/
theorem scanPolys_spec (p : Point2LL) (br : Bool) :
    ∀ (polys : List Polygon) (idx : Nat) (acc : List (Nat × Option Int)),
      scanPolys p br polys idx acc =
        (if br = true ∧ polys.any (fun poly => hasBorderEdge p poly) = true then
          Sum.inr (idx + polys.findIdx (fun poly => hasBorderEdge p poly))
        else Sum.inl (acc.reverse ++
          polys.map (fun poly => (crossCount p poly, polyMinX p poly)))) := by
  intro polys
  induction polys with
  | nil =>
    intro idx acc
    simp [scanPolys]
  | cons poly rest ih =>
    intro idx acc
    by_cases hb : br = true ∧ hasBorderEdge p poly = true
    · have hse : scanEdges p br (polyEdges poly) 0 none = none := by
        rw [scanEdges_spec, if_pos]
        exact ⟨hb.1, hb.2⟩
      have hcond : br = true ∧
          ((poly :: rest).any (fun poly => hasBorderEdge p poly)) = true := by
        refine ⟨hb.1, ?_⟩
        simp [List.any_cons, hb.2]
      rw [if_pos hcond]
      simp only [scanPolys, hse]
      rw [List.findIdx_cons, hb.2]
      simp only [cond_true, Nat.add_zero]
    · have hse : scanEdges p br (polyEdges poly) 0 none =
          some (crossCount p poly, polyMinX p poly) := by
        rw [scanEdges_spec, if_neg]
        · rw [Nat.zero_add]
          rfl
        · intro hc
          exact hb ⟨hc.1, hc.2⟩
      simp only [scanPolys, hse]
      rw [ih]
      by_cases hb2 : br = true ∧ rest.any (fun poly => hasBorderEdge p poly) = true
      · rw [if_pos hb2]
        have hpoly : hasBorderEdge p poly = false := by
          cases h : hasBorderEdge p poly
          · rfl
          · exact absurd ⟨hb2.1, h⟩ hb
        rw [if_pos ⟨hb2.1, by simp [List.any_cons, hb2.2]⟩]
        rw [List.findIdx_cons, hpoly]
        simp only [cond_false]
        congr 1
        omega
      · rw [if_neg hb2, if_neg]
        · simp
        · intro hc
          rcases hc with ⟨hbr, hany⟩
          simp only [List.any_cons, Bool.or_eq_true] at hany
          rcases hany with h | h
          · exact hb ⟨hbr, h⟩
          · exact hb2 ⟨hbr, h⟩

/-- The running minimum produced by the min_x fold is a recorded value
(not the sentinel) as soon as the start value is recorded or at least one
crossing edge is seen. -/
theorem foldl_updateMin_isSome (p : Point2LL) :
    ∀ (es : List (Point2LL × Point2LL)) (mx : Option Int),
      (mx.isSome = true ∨
        0 < es.countP (fun e => pointLiesOnTheRightOfLine p e.1 e.2 = 1)) →
      ((es.foldl (fun m e => if pointLiesOnTheRightOfLine p e.1 e.2 = 1
        then updateMin m (crossingX p e.1 e.2) else m) mx).isSome = true) := by
  intro es
  induction es with
  | nil =>
    intro mx h
    rcases h with h | h
    · exact h
    · simp at h
  | cons e rest ih =>
    intro mx h
    obtain ⟨p0, p1⟩ := e
    by_cases h1 : pointLiesOnTheRightOfLine p p0 p1 = 1
    · simp only [List.foldl_cons, if_pos h1]
      apply ih
      left
      cases mx <;> simp [updateMin]
    · simp only [List.foldl_cons, if_neg h1]
      apply ih
      rcases h with h | h
      · exact Or.inl h
      · right
        have hd : (if decide (pointLiesOnTheRightOfLine p p0 p1 = 1) = true
            then 1 else 0) = 0 := by
          simp [h1]
        rw [List.countP_cons, hd] at h
        omega

/-- A polygon with at least one ray crossing has a recorded min_x. -/
theorem polyMinX_isSome (p : Point2LL) (poly : Polygon)
    (h : 0 < crossCount p poly) : (polyMinX p poly).isSome = true := by
  exact foldl_updateMin_isSome p (polyEdges poly) none (Or.inr h)

/-- Invariant of the selection loop of findInside: the second component
counts the odd-crossing entries; the first component is either the
incoming candidate (when no scanned odd entry strictly beats the incoming
minimum) or `idx + j` for an odd entry `j` that strictly beats the
incoming minimum and is no worse than every odd entry. -/
theorem selectLoop_spec :
    ∀ (stats : List (Nat × Option Int)) (idx : Nat) (mxu : Option Int)
      (ret : Option Nat) (n : Nat),
      (selectLoop stats idx mxu ret n).2 =
        n + stats.countP (fun st => st.1 % 2 = 1) ∧
      (((selectLoop stats idx mxu ret n).1 = ret ∧
          ∀ (j : Nat) (st : Nat × Option Int), stats[j]? = some st →
            st.1 % 2 = 1 → optLe mxu st.2 = true) ∨
        (∃ (j : Nat) (st : Nat × Option Int), stats[j]? = some st ∧
          st.1 % 2 = 1 ∧
          (selectLoop stats idx mxu ret n).1 = some (idx + j) ∧
          optLt st.2 mxu = true ∧
          ∀ (k : Nat) (st2 : Nat × Option Int), stats[k]? = some st2 →
            st2.1 % 2 = 1 → optLe st.2 st2.2 = true)) := by
  intro stats
  induction stats with
  | nil =>
    intro idx mxu ret n
    refine ⟨by simp [selectLoop], Or.inl ⟨rfl, ?_⟩⟩
    intro j st hj
    simp at hj
  | cons st0 rest ih =>
    intro idx mxu ret n
    obtain ⟨cr, mx⟩ := st0
    by_cases hodd : cr % 2 = 1
    · have hd : (if decide (((cr, mx) : Nat × Option Int).1 % 2 = 1) = true
          then 1 else 0) = 1 := by
        simp [hodd]
      by_cases hlt : optLt mx mxu = true
      · have heq : selectLoop ((cr, mx) :: rest) idx mxu ret n =
            selectLoop rest (idx + 1) mx (some idx) (n + 1) := by
          rw [selectLoop, if_pos hodd, if_pos hlt]
        obtain ⟨ihcnt, ihsel⟩ := ih (idx + 1) mx (some idx) (n + 1)
        constructor
        · rw [heq, ihcnt, List.countP_cons, hd]
          omega
        · right
          rcases ihsel with ⟨hret, hall⟩ | ⟨j, st, hj, hjodd, hval, hjlt, hjall⟩
          · refine ⟨0, (cr, mx), List.getElem?_cons_zero, hodd, ?_, hlt, ?_⟩
            · rw [heq, hret, Nat.add_zero]
            · intro k st2 hk hk2
              cases k with
              | zero =>
                rw [List.getElem?_cons_zero] at hk
                cases hk
                exact optLe_refl mx
              | succ k =>
                rw [List.getElem?_cons_succ] at hk
                exact hall k st2 hk hk2
          · refine ⟨j + 1, st, by rw [List.getElem?_cons_succ]; exact hj,
              hjodd, ?_, ?_, ?_⟩
            · rw [heq, hval]
              congr 1
              omega
            · exact optLt_le_trans hjlt (optLt_optLe hlt)
            · intro k st2 hk hk2
              cases k with
              | zero =>
                rw [List.getElem?_cons_zero] at hk
                cases hk
                exact optLt_optLe hjlt
              | succ k =>
                rw [List.getElem?_cons_succ] at hk
                exact hjall k st2 hk hk2
      · have hlt' : optLt mx mxu = false := by
          cases h : optLt mx mxu
          · rfl
          · exact absurd h hlt
        have heq : selectLoop ((cr, mx) :: rest) idx mxu ret n =
            selectLoop rest (idx + 1) mxu ret (n + 1) := by
          rw [selectLoop, if_pos hodd, if_neg hlt]
        obtain ⟨ihcnt, ihsel⟩ := ih (idx + 1) mxu ret (n + 1)
        constructor
        · rw [heq, ihcnt, List.countP_cons, hd]
          omega
        · rcases ihsel with ⟨hret, hall⟩ | ⟨j, st, hj, hjodd, hval, hjlt, hjall⟩
          · left
            refine ⟨by rw [heq, hret], ?_⟩
            intro k st2 hk hk2
            cases k with
            | zero =>
              rw [List.getElem?_cons_zero] at hk
              cases hk
              exact not_optLt hlt'
            | succ k =>
              rw [List.getElem?_cons_succ] at hk
              exact hall k st2 hk hk2
          · right
            refine ⟨j + 1, st, by rw [List.getElem?_cons_succ]; exact hj,
              hjodd, ?_, hjlt, ?_⟩
            · rw [heq, hval]
              congr 1
              omega
            · intro k st2 hk hk2
              cases k with
              | zero =>
                rw [List.getElem?_cons_zero] at hk
                cases hk
                exact optLt_optLe (optLt_le_trans hjlt (not_optLt hlt'))
              | succ k =>
                rw [List.getElem?_cons_succ] at hk
                exact hjall k st2 hk hk2
    · have hd : (if decide (((cr, mx) : Nat × Option Int).1 % 2 = 1) = true
          then 1 else 0) = 0 := by
        simp [hodd]
      have heq : selectLoop ((cr, mx) :: rest) idx mxu ret n =
          selectLoop rest (idx + 1) mxu ret n := by
        rw [selectLoop, if_neg hodd]
      obtain ⟨ihcnt, ihsel⟩ := ih (idx + 1) mxu ret n
      constructor
      · rw [heq, ihcnt, List.countP_cons, hd]
        omega
      · rcases ihsel with ⟨hret, hall⟩ | ⟨j, st, hj, hjodd, hval, hjlt, hjall⟩
        · left
          refine ⟨by rw [heq, hret], ?_⟩
          intro k st2 hk hk2
          cases k with
          | zero =>
            rw [List.getElem?_cons_zero] at hk
            cases hk
            exact absurd hk2 hodd
          | succ k =>
            rw [List.getElem?_cons_succ] at hk
            exact hall k st2 hk hk2
        · right
          refine ⟨j + 1, st, by rw [List.getElem?_cons_succ]; exact hj,
            hjodd, ?_, hjlt, ?_⟩
          · rw [heq, hval]
            congr 1
            omega
          · intro k st2 hk hk2
            cases k with
            | zero =>
              rw [List.getElem?_cons_zero] at hk
              cases hk
              exact absurd hk2 hodd
            | succ k =>
              rw [List.getElem?_cons_succ] at hk
              exact hjall k st2 hk hk2

/-- Full characterization of `Shape::findInside` on a non-empty Shape:
with border_result set and a border polygon present, the first such
polygon's index is returned; otherwise the result is NO_INDEX exactly
when the number of odd-crossing polygons is even, and otherwise an
odd-crossing polygon whose min_x is smallest. -/
theorem findInside_spec (s : Shape) (p : Point2LL) (br : Bool) (hne : s ≠ []) :
    (br = true → (∃ poly ∈ s, hasBorderEdge p poly = true) →
      findInside s p br = some (s.findIdx (fun poly => hasBorderEdge p poly))) ∧
    ((br = false ∨ ∀ poly ∈ s, hasBorderEdge p poly = false) →
      ((oddPolyCount p s % 2 = 0 → findInside s p br = none) ∧
       (oddPolyCount p s % 2 = 1 →
         ∃ (j : Nat) (poly : Polygon), findInside s p br = some j ∧
           s[j]? = some poly ∧ crossCount p poly % 2 = 1 ∧
           ∀ (k : Nat) (poly2 : Polygon), s[k]? = some poly2 →
             crossCount p poly2 % 2 = 1 →
             optLe (polyMinX p poly) (polyMinX p poly2) = true))) := by
  have hlen : ¬(s.length < 1) := by
    have := List.length_pos.2 hne
    omega
  constructor
  · intro hbr hex
    have hsp := scanPolys_spec p br s 0 []
    rw [if_pos ⟨hbr, List.any_eq_true.2 hex⟩] at hsp
    simp only [findInside, if_neg hlen, hsp]
    rw [Nat.zero_add]
  · intro hnob
    have hcond : ¬(br = true ∧ s.any (fun poly => hasBorderEdge p poly) = true) := by
      rintro ⟨hbr, hany⟩
      rcases hnob with hf | hall
      · rw [hf] at hbr
        exact Bool.false_ne_true hbr
      · obtain ⟨poly, hmem, hb⟩ := List.any_eq_true.1 hany
        rw [hall poly hmem] at hb
        exact Bool.false_ne_true hb
    have hsp := scanPolys_spec p br s 0 []
    rw [if_neg hcond] at hsp
    simp only [List.reverse_nil, List.nil_append] at hsp
    have hfi : findInside s p br =
        selectRet (s.map (fun poly => (crossCount p poly, polyMinX p poly))) := by
      simp only [findInside, if_neg hlen, hsp]
    obtain ⟨hcnt, hsel⟩ := selectLoop_spec
      (s.map (fun poly => (crossCount p poly, polyMinX p poly))) 0 none none 0
    have hcount : (selectLoop
        (s.map (fun poly => (crossCount p poly, polyMinX p poly)))
        0 none none 0).2 = oddPolyCount p s := by
      rw [hcnt, List.countP_map, Nat.zero_add]
      rfl
    constructor
    · intro heven
      rw [hfi]
      simp only [selectRet]
      rw [if_pos]
      rw [hcount]
      exact heven
    · intro hoddc
      have hret : selectRet
          (s.map (fun poly => (crossCount p poly, polyMinX p poly))) =
          (selectLoop (s.map (fun poly => (crossCount p poly, polyMinX p poly)))
            0 none none 0).1 := by
        simp only [selectRet]
        rw [if_neg]
        rw [hcount]
        omega
      rcases hsel with ⟨hnone, hall⟩ | ⟨j, st, hj, hjodd, hval, _, hjall⟩
      · exfalso
        have hpos : 0 < oddPolyCount p s := by omega
        have hpos' : 0 < s.countP (fun poly => decide (crossCount p poly % 2 = 1)) :=
          hpos
        obtain ⟨poly, hmem, hb⟩ := List.countP_pos.1 hpos'
        obtain ⟨jj, hjj⟩ := List.mem_iff_getElem?.1
          (List.mem_map_of_mem (fun poly => (crossCount p poly, polyMinX p poly)) hmem)
        have hodd' : (crossCount p poly, polyMinX p poly).1 % 2 = 1 := by
          simpa using hb
        have hle := hall jj (crossCount p poly, polyMinX p poly) hjj hodd'
        have hsome : (polyMinX p poly).isSome = true := by
          apply polyMinX_isSome
          omega
        obtain ⟨y, hy⟩ := Option.isSome_iff_exists.1 hsome
        rw [hy] at hle
        simp [optLe] at hle
      · rw [List.getElem?_map] at hj
        cases hsj : s[j]? with
        | none =>
          rw [hsj] at hj
          simp at hj
        | some poly =>
          rw [hsj] at hj
          simp only [Option.map_some'] at hj
          have hst : st = (crossCount p poly, polyMinX p poly) := by
            injection hj with hj
            exact hj.symm
          refine ⟨j, poly, ?_, hsj, ?_, ?_⟩
          · rw [hfi, hret, hval, Nat.zero_add]
          · rw [hst] at hjodd
            exact hjodd
          · intro k poly2 hk hk2
            have hmk : (s.map (fun poly => (crossCount p poly, polyMinX p poly)))[k]? =
                some (crossCount p poly2, polyMinX p poly2) := by
              rw [List.getElem?_map, hk]
              rfl
            have := hjall k (crossCount p poly2, polyMinX p poly2) hmk (by
              simpa using hk2)
            rw [hst] at this
            exact this

/-- C2 (counterexample): on the empty Shape the number of odd-crossing
polygons is 0 (even), yet findInside does not return NOT_FOUND: the
`return false;` of shape.cpp:171 converts to size_t 0, a valid index. -/
theorem C2_empty_shape_counterexample :
    oddPolyCount ⟨3, 4⟩ ([] : Shape) % 2 = 0 ∧
    findInside ([] : Shape) ⟨3, 4⟩ true ≠ none ∧
    findInside ([] : Shape) ⟨3, 4⟩ true = some 0 := by decide

/-- C2 (amended): for every NON-empty Shape, findInside behaves as
claimed: with border_result set and the point exactly on an edge of some
polygon, the index of the first such polygon is returned immediately;
otherwise NOT_FOUND (none) is returned exactly when the number of
polygons with an odd ray-crossing count is even, and when that number is
odd the returned index is an odd-crossing polygon whose minimum
right-crossing abscissa is no larger than that of every odd-crossing
polygon.  (On the empty Shape the claim fails, see the counterexample.) -/
theorem C2_findInside_characterization (s : Shape) (p : Point2LL) (br : Bool)
    (hne : s ≠ []) :
    (br = true → (∃ poly ∈ s, hasBorderEdge p poly = true) →
      findInside s p br = some (s.findIdx (fun poly => hasBorderEdge p poly))) ∧
    ((br = false ∨ ∀ poly ∈ s, hasBorderEdge p poly = false) →
      ((oddPolyCount p s % 2 = 0 → findInside s p br = none) ∧
       (oddPolyCount p s % 2 = 1 →
         ∃ (j : Nat) (poly : Polygon), findInside s p br = some j ∧
           s[j]? = some poly ∧ crossCount p poly % 2 = 1 ∧
           ∀ (k : Nat) (poly2 : Polygon), s[k]? = some poly2 →
             crossCount p poly2 % 2 = 1 →
             optLe (polyMinX p poly) (polyMinX p poly2) = true))) :=
  findInside_spec s p br hne

/-- Witness for C2 on a concrete square-with-hole Shape: the center point
crosses both loops once (2 odd-crossing polygons, even), so findInside
returns NOT_FOUND. -/
theorem C2_findInside_characterization_witness :
    findInside [[(⟨0, 0⟩ : Point2LL), ⟨100, 0⟩, ⟨100, 100⟩, ⟨0, 100⟩],
      [⟨20, 20⟩, ⟨80, 20⟩, ⟨80, 80⟩, ⟨20, 80⟩]] ⟨50, 50⟩ true = none :=
  ((C2_findInside_characterization
      [[(⟨0, 0⟩ : Point2LL), ⟨100, 0⟩, ⟨100, 100⟩, ⟨0, 100⟩],
        [⟨20, 20⟩, ⟨80, 20⟩, ⟨80, 80⟩, ⟨20, 80⟩]] ⟨50, 50⟩ true
      (by decide)).2 (Or.inr (by decide))).1 (by decide)

/-- The accumulation loop of `Shape::inside`: border_result on the first
border hit, otherwise the parity of the accumulated count plus the number
of odd-crossing polygons. -/
theorem insideLoop_spec (p : Point2LL) (br : Bool) :
    ∀ (polys : List Polygon) (cnt : Int),
      insideLoop p br polys cnt =
        (if polys.any (fun poly => hasBorderEdge p poly) = true then br
         else ((cnt + (polys.countP
           (fun poly => crossCount p poly % 2 = 1) : Int)) % 2 == 1)) := by
  intro polys
  induction polys with
  | nil =>
    intro cnt
    simp [insideLoop]
  | cons poly rest ih =>
    intro cnt
    by_cases hb : hasBorderEdge p poly = true
    · have hbu : ((polyEdges poly).any
          (fun e => pointLiesOnTheRightOfLine p e.1 e.2 = 0)) = true := hb
      have hpt : pointInPolygon p poly = -1 := by
        rw [pointInPolygon, if_pos hbu]
      have hcond : ((poly :: rest).any (fun poly => hasBorderEdge p poly)) = true := by
        simp [List.any_cons, hb]
      rw [if_pos hcond]
      simp only [insideLoop, hpt]
      simp
    · have hbu : ¬(((polyEdges poly).any
          (fun e => pointLiesOnTheRightOfLine p e.1 e.2 = 0)) = true) := hb
      have hb' : hasBorderEdge p poly = false := by
        cases h : hasBorderEdge p poly
        · rfl
        · exact absurd h hb
      have hany : ((poly :: rest).any (fun poly => hasBorderEdge p poly)) =
          (rest.any (fun poly => hasBorderEdge p poly)) := by
        simp [List.any_cons, hb']
      by_cases hodd : crossCount p poly % 2 = 1
      · have hoddu : (polyEdges poly).countP
            (fun e => pointLiesOnTheRightOfLine p e.1 e.2 = 1) % 2 = 1 := hodd
        have hpt : pointInPolygon p poly = 1 := by
          rw [pointInPolygon, if_neg hbu, if_pos hoddu]
        have hstep : insideLoop p br (poly :: rest) cnt =
            insideLoop p br rest (cnt + 1) := by
          simp only [insideLoop, hpt]
          simp
        rw [hstep, ih, hany]
        have hcnt : ((poly :: rest).countP
            (fun poly => crossCount p poly % 2 = 1)) =
            rest.countP (fun poly => crossCount p poly % 2 = 1) + 1 := by
          rw [List.countP_cons]
          simp [hodd]
        rw [hcnt]
        have harith : (cnt + 1 + (rest.countP
            (fun poly => crossCount p poly % 2 = 1) : Int)) =
            (cnt + ((rest.countP (fun poly => crossCount p poly % 2 = 1) + 1 : Nat) :
              Int)) := by
          push_cast
          omega
        rw [← harith]
      · have hoddu : ¬((polyEdges poly).countP
            (fun e => pointLiesOnTheRightOfLine p e.1 e.2 = 1) % 2 = 1) := hodd
        have hpt : pointInPolygon p poly = 0 := by
          rw [pointInPolygon, if_neg hbu, if_neg hoddu]
        have hstep : insideLoop p br (poly :: rest) cnt =
            insideLoop p br rest (cnt + 0) := by
          simp only [insideLoop, hpt]
          simp
        rw [hstep, ih, hany]
        have hcnt : ((poly :: rest).countP
            (fun poly => crossCount p poly % 2 = 1)) =
            rest.countP (fun poly => crossCount p poly % 2 = 1) := by
          rw [List.countP_cons]
          simp [hodd]
        rw [hcnt, Int.add_zero]

/-- On a non-empty Shape, `inside(S, p, true)` agrees with
`findInside(S, p, true) != NO_INDEX` (the claimed equivalence holds away
from the empty-Shape slip). -/
theorem inside_iff_findInside_found (s : Shape) (p : Point2LL) (hne : s ≠ []) :
    inside s p true = true ↔ findInside s p true ≠ none := by
  have hspec := findInside_spec s p true hne
  rw [inside, insideLoop_spec]
  by_cases hb : (s.any (fun poly => hasBorderEdge p poly)) = true
  · rw [if_pos hb]
    obtain ⟨poly, hmem, hpb⟩ := List.any_eq_true.1 hb
    have hfi := hspec.1 rfl ⟨poly, hmem, hpb⟩
    rw [hfi]
    simp
  · rw [if_neg hb]
    have hall : ∀ poly ∈ s, hasBorderEdge p poly = false := by
      intro poly hmem
      cases h : hasBorderEdge p poly
      · rfl
      · exact absurd (List.any_eq_true.2 ⟨poly, hmem, h⟩) hb
    have h2 := hspec.2 (Or.inr hall)
    have hcount : (s.countP (fun poly => crossCount p poly % 2 = 1)) =
        oddPolyCount p s := rfl
    rw [hcount]
    by_cases hev : oddPolyCount p s % 2 = 0
    · rw [h2.1 hev]
      constructor
      · intro hbeq
        exfalso
        have h1 : ((0 : Int) + (oddPolyCount p s : Int)) % 2 = 1 :=
          beq_iff_eq.1 hbeq
        omega
      · intro hy
        exact absurd rfl hy
    · have hodd : oddPolyCount p s % 2 = 1 := by omega
      obtain ⟨j, poly, hfi, _, _, _⟩ := h2.2 hodd
      rw [hfi]
      constructor
      · intro _
        simp
      · intro _
        exact beq_iff_eq.2 (by omega)

end CuraGeom
